import Mathlib

/-!
# A shallow embedding of `types.go` (package `swag`)

The file embeds the per-package registry `PackageDefinitions` and the type
descriptor `TypeSpecDef` of `types.go`, together with the few standard
library routines their control flow depends on (`strings.HasSuffix`,
`strings.TrimPrefix`, `strings.TrimLeft`, `strings.ToLower`,
`filepath.Ext`, `filepath.Join`).

Conventions.

* A Go `string` is a list of code points (`GoString`); the embedding covers
  valid UTF-8 strings.
* A pointer that may be `nil` is an `Option`.
* The file system and the Go parser are inputs of the operations that
  consult them (`readDir`, `ParseFile`).
* Every registry operation returns an `Exec`: the returned values or the
  panic that aborted the call, the registry after the call, and the list of
  paths handed to the parser during the call.
* Output written by `log.Println` and `println` is not modelled.
-/

set_option autoImplicit false

namespace Swag

/-- A Go string, as the list of its code points. -/
abbrev GoString := List Char

/-! ## Standard library routines -/

/-- Go `strings.HasPrefix`:
`len(s) >= len(prefix) && s[:len(prefix)] == prefix`. -/
def HasPrefix (s pre : GoString) : Bool :=
  decide (pre.length ≤ s.length) && decide (s.take pre.length = pre)

/-- Go `strings.HasSuffix`:
`len(s) >= len(suffix) && s[len(s)-len(suffix):] == suffix`. -/
def HasSuffix (s suffix : GoString) : Bool :=
  decide (suffix.length ≤ s.length) && decide (s.drop (s.length - suffix.length) = suffix)

/-- Go `strings.TrimPrefix`: `s` without the leading `prefix`, or `s` itself
when it does not start with `prefix`. -/
def TrimPrefix (s pre : GoString) : GoString :=
  if HasPrefix s pre then s.drop pre.length else s

/-- Go `strings.TrimSuffix`: `s` without the trailing `suffix`, or `s` itself
when it does not end with `suffix`. -/
def TrimSuffix (s suffix : GoString) : GoString :=
  if HasSuffix s suffix then s.take (s.length - suffix.length) else s

/-- Go `strings.TrimLeft`: `s` with all leading code points contained in
`cutset` removed. -/
def TrimLeft (s cutset : GoString) : GoString :=
  s.dropWhile (fun c => decide (c ∈ cutset))

/-- Go `unicode.ToLower`. ASCII letters are mapped by the arithmetic of the
library; the case tables that map the code points above ASCII are the
parameter `caseTable`. -/
def unicodeToLower (caseTable : Char → Char) (r : Char) : Char :=
  if r.toNat ≤ 127 then
    if 65 ≤ r.toNat ∧ r.toNat ≤ 90 then Char.ofNat (r.toNat + 32) else r
  else caseTable r

/-- Go `strings.ToLower`: every code point mapped to its lower case. -/
def ToLower (caseTable : Char → Char) (s : GoString) : GoString :=
  s.map (unicodeToLower caseTable)

/-- The backward scan of `filepath.Ext`. The first argument is the part of
the path not yet visited, last character first; the second is the part
already visited. -/
def extScan : List Char → GoString → GoString
  | [], _ => []
  | c :: rest, seen =>
    if c = '/' then []
    else if c = '.' then c :: seen
    else extScan rest (c :: seen)

/-- Go `filepath.Ext` (POSIX separator): the suffix beginning at the final
dot in the final element of `path`; empty if there is no dot. -/
def Ext (path : GoString) : GoString :=
  extScan path.reverse []

/-- The elements of a slash-separated path. The second argument is the
element being read. -/
def splitSlash : List Char → GoString → List GoString
  | [], cur => [cur]
  | c :: rest, cur =>
    if c = '/' then cur :: splitSlash rest [] else splitSlash rest (cur ++ [c])

/-- One step of `filepath.Clean` over the elements of a path: empty and `.`
elements are dropped, `..` removes the element before it (and is kept at
the front of a relative path), any other element is appended. -/
def cleanStep (rooted : Bool) (out : List GoString) (elem : GoString) : List GoString :=
  if elem = [] ∨ elem = ['.'] then out
  else if elem = ['.', '.'] then
    match out.getLast? with
    | none => if rooted then out else [elem]
    | some last => if last = ['.', '.'] then out ++ [elem] else out.dropLast
  else out ++ [elem]

/-- Go `filepath.Clean` (POSIX): the shortest path name equivalent to `path`
by purely lexical processing. -/
def Clean (path : GoString) : GoString :=
  if path = [] then ['.']
  else
    let rooted : Bool := decide (path.head? = some '/')
    let out := (splitSlash path []).foldl (cleanStep rooted) []
    let body := List.intercalate ['/'] out
    if rooted then '/' :: body
    else if out = [] then ['.'] else body

/-- Go `filepath.Join` for two elements: empty elements are ignored, the
others are joined by the separator and the result is cleaned. -/
def Join (a b : GoString) : GoString :=
  if a ≠ [] then Clean (a ++ '/' :: b)
  else if b ≠ [] then Clean b
  else []

/-! ## Syntax tree nodes (`go/ast`)

The nodes are those the Go parser builds: the `Name` field of a file, a type
declaration and a function declaration always points to an identifier node.
-/

/-- An `ast.Ident`. -/
structure Ident where
  Name : GoString
  deriving DecidableEq, Repr

/-- An `ast.File`. `ref` stands for the identity of the allocated node,
`Name` is the package clause. -/
structure AstFile where
  ref : Nat
  Name : Ident
  deriving DecidableEq, Repr

/-- An `ast.TypeSpec`. -/
structure TypeSpec where
  Name : Ident
  deriving DecidableEq, Repr

/-- An `ast.FuncDecl`. -/
structure FuncDecl where
  Name : Ident
  deriving DecidableEq, Repr

/-- A non-nil `ast.Decl` interface value, by dynamic type. A value of dynamic
type `*ast.FuncDecl` may hold a nil pointer. -/
inductive Decl where
  | funcDecl (p : Option FuncDecl)
  | genDecl
  | badDecl
  deriving DecidableEq, Repr

/-! ## `TypeSpecDef` -/

/-- The struct `TypeSpecDef`. -/
structure TypeSpecDef where
  File : Option AstFile
  TypeSpec : Option TypeSpec
  PkgPath : GoString
  ParentSpec : Option Decl
  deriving DecidableEq, Repr

/-- The method `(*TypeSpecDef).Name`. -/
def TypeSpecDef.Name (t : TypeSpecDef) : GoString :=
  match t.TypeSpec with
  | some ts => ts.Name.Name
  | none => []

/-- The method `(*TypeSpecDef).FullPath`. -/
def TypeSpecDef.FullPath (t : TypeSpecDef) : GoString :=
  t.PkgPath ++ ['.'] ++ t.Name

/-! ## `PackageDefinitions` -/

/-- An entry returned by `ioutil.ReadDir`: its name and whether it is a
directory. -/
structure FileInfo where
  Name : GoString
  IsDir : Bool
  deriving DecidableEq, Repr

/-- The struct `PackageDefinitions`. `files` is the slice of `*ast.File`,
a nil pointer being `none`; `TypeDefinitions` is the map, as its list of
bindings. -/
structure PackageDefinitions where
  files : List (Option AstFile)
  filenames : List GoString
  TypeDefinitions : List (GoString × TypeSpecDef)
  ImportName : GoString
  ImportPath : GoString
  Dir : GoString
  deriving DecidableEq, Repr

/-- A Go panic: a failed index expression, an explicit `panic` with an error
value, or the dereference of a nil pointer. -/
inductive Panic where
  | indexOutOfRange
  | error (msg : GoString)
  | nilDereference
  deriving DecidableEq, Repr

/-- The outcome of a registry operation: the returned values or the panic
that aborted the call, the registry after the call, and the paths handed to
the parser during the call, in order. -/
structure Exec (α : Type) where
  result : Except Panic α
  pd : PackageDefinitions
  parsed : List GoString

/-- The inclusion rule in the words of the specification: the lower-cased
extension is the source-file extension, and the name ends neither with the
test-file suffix nor with the generated-file suffix. -/
def includedName (caseTable : Char → Char) (name : GoString) : Bool :=
  decide (ToLower caseTable (Ext name) = ".go".toList)
    && !HasSuffix name "_test.go".toList
    && !HasSuffix name "-gen.go".toList

/-- The loop `for _, fi := range fis` of `newPackageDefinitions`; the second
argument is the slice `filenames` built so far. -/
def scanEntries (caseTable : Char → Char) : List FileInfo → List GoString → List GoString
  | [], filenames => filenames
  | fi :: rest, filenames =>
    if ToLower caseTable (Ext fi.Name) ≠ ".go".toList then
      scanEntries caseTable rest filenames
    else if HasSuffix fi.Name "_test.go".toList then
      scanEntries caseTable rest filenames
    else if HasSuffix fi.Name "-gen.go".toList then
      scanEntries caseTable rest filenames
    else
      scanEntries caseTable rest (filenames ++ [fi.Name])

/-- The function `newPackageDefinitions`. `readDir` is `ioutil.ReadDir` on the
file system at the time of the call. -/
def newPackageDefinitions (caseTable : Char → Char)
    (readDir : GoString → Except GoString (List FileInfo))
    (importName importPath packageDir : GoString) : Except GoString PackageDefinitions :=
  match readDir packageDir with
  | .error err => .error err
  | .ok fis =>
    let filenames := scanEntries caseTable fis []
    let packageDir := TrimSuffix packageDir ['/']
    let packageDir := TrimSuffix packageDir ['\\']
    .ok { files := List.replicate filenames.length none
          filenames := filenames
          TypeDefinitions := []
          ImportName := importName
          ImportPath := importPath
          Dir := packageDir }

/-- The path normalisation shared by `mustAdd` and `findFile`:
`strings.TrimLeft(strings.TrimPrefix(filename, pd.Dir), "/\\")`. -/
def simpleFilename (pd : PackageDefinitions) (filename : GoString) : GoString :=
  TrimLeft (TrimPrefix filename pd.Dir) ['/', '\\']

/-- The first loop of `mustAdd`, from index `idx` on; `none` when the loop
ends without a match. -/
def mustAddLoop (pd : PackageDefinitions) (simplefilename : GoString)
    (file : Option AstFile) : List GoString → Nat → Option (Exec Unit)
  | [], _ => none
  | name :: rest, idx =>
    if simplefilename = name then
      if idx < pd.files.length then
        some ⟨.ok (), { pd with files := pd.files.set idx file }, []⟩
      else
        some ⟨.error .indexOutOfRange, pd, []⟩
    else mustAddLoop pd simplefilename file rest (idx + 1)

/-- The method `mustAdd`. -/
def mustAdd (pd : PackageDefinitions) (filename : GoString) (file : Option AstFile) :
    Exec Unit :=
  match mustAddLoop pd (simpleFilename pd filename) file pd.filenames 0 with
  | some e => e
  | none => ⟨.error (.error (filename ++ " isnot exist in the ".toList ++ pd.Dir)), pd, []⟩

/-- The loop of `findFile`, from index `idx` on; `none` when the loop ends
without a match. -/
def findFileLoop (pd : PackageDefinitions) (simplefilename : GoString) :
    List GoString → Nat → Option (Exec (Option AstFile))
  | [], _ => none
  | name :: rest, idx =>
    if simplefilename = name then
      match pd.files[idx]? with
      | some f => some ⟨.ok f, pd, []⟩
      | none => some ⟨.error .indexOutOfRange, pd, []⟩
    else findFileLoop pd simplefilename rest (idx + 1)

/-- The method `findFile`. -/
def findFile (pd : PackageDefinitions) (filename : GoString) : Exec (Option AstFile) :=
  match findFileLoop pd (simpleFilename pd filename) pd.filenames 0 with
  | some e => e
  | none => ⟨.ok none, pd, []⟩

/-- The method `fileCount`. -/
def fileCount (pd : PackageDefinitions) : Int :=
  pd.filenames.length

/-- The three values returned by `loadFileByIndex`. -/
structure Loaded where
  file : Option AstFile
  fresh : Bool
  err : Option GoString
  deriving DecidableEq, Repr

/-- A slice index expression `s[idx]` with an `int` index: `none` when the
index is out of range. -/
def index {α : Type} (s : List α) (idx : Int) : Option α :=
  if idx < 0 then none else s[idx.toNat]?

/-- The method `loadFileByIndex`. `ParseFile path` is the pair returned by
`goparser.ParseFile(token.NewFileSet(), path, nil, goparser.ParseComments)`
on the file system at the time of the call. -/
def loadFileByIndex (ParseFile : GoString → Option AstFile × Option GoString)
    (pd : PackageDefinitions) (idx : Int) : Exec Loaded :=
  match index pd.files idx with
  | none => ⟨.error .indexOutOfRange, pd, []⟩
  | some (some f) => ⟨.ok ⟨some f, false, none⟩, pd, []⟩
  | some none =>
    match index pd.filenames idx with
    | none => ⟨.error .indexOutOfRange, pd, []⟩
    | some name =>
      let filename := Join pd.Dir name
      match ParseFile filename with
      | (_, some err) =>
        ⟨.ok ⟨none, false,
            some ("cannot parse source files ".toList ++ filename ++ ": ".toList ++ err)⟩,
          pd, [filename]⟩
      | (fileTree, none) =>
        ⟨.ok ⟨fileTree, true, none⟩, { pd with files := pd.files.set idx.toNat fileTree },
          [filename]⟩

/-! ## Canonical names of a `TypeSpecDef` -/

/-- Modelled from the spec: the helper `fullTypeName`, which `FullName` calls
and `types.go` does not contain; it joins the package name and the type name
with a dot. -/
def fullTypeName (pkgName typeName : GoString) : GoString :=
  pkgName ++ ['.'] ++ typeName

/-- Modelled from the spec: the helper `fullTypeNameFunctionScoped`, which
`FullName` calls and `types.go` does not contain; it joins the package name,
the name of the enclosing function and the type name with dots. -/
def fullTypeNameFunctionScoped (pkgName fnName typeName : GoString) : GoString :=
  pkgName ++ ['.'] ++ fnName ++ ['.'] ++ typeName

/-- The type assertion of `FullName`,
`parentFun, ok := (t.ParentSpec).(*ast.FuncDecl); ok && parentFun != nil`:
the function declaration when the test holds, `none` when it fails. -/
def TypeSpecDef.parentFun (t : TypeSpecDef) : Option FuncDecl :=
  match t.ParentSpec with
  | some (.funcDecl (some parentFun)) => some parentFun
  | _ => none

/-- The method `(*TypeSpecDef).FullName`. The selectors `t.File.Name` and
`t.TypeSpec.Name` dereference `t.File` and `t.TypeSpec`, in this order, and
panic on a nil pointer. -/
def TypeSpecDef.FullName (t : TypeSpecDef) : Except Panic GoString :=
  match t.parentFun with
  | some parentFun =>
    match t.File with
    | none => .error .nilDereference
    | some file =>
      match t.TypeSpec with
      | none => .error .nilDereference
      | some ts =>
        .ok (fullTypeNameFunctionScoped file.Name.Name parentFun.Name.Name ts.Name.Name)
  | none =>
    match t.File with
    | none => .error .nilDereference
    | some file =>
      match t.TypeSpec with
      | none => .error .nilDereference
      | some ts => .ok (fullTypeName file.Name.Name ts.Name.Name)

/-! ## Sequences of calls -/

/-- A call of one of the registry's methods. -/
inductive Op where
  | mustAdd (filename : GoString) (file : Option AstFile)
  | findFile (filename : GoString)
  | loadFileByIndex (ParseFile : GoString → Option AstFile × Option GoString) (idx : Int)

/-- The registry after a call, whether the call returned or panicked. -/
def Op.after (pd : PackageDefinitions) : Op → PackageDefinitions
  | .mustAdd filename file => (Swag.mustAdd pd filename file).pd
  | .findFile filename => (Swag.findFile pd filename).pd
  | .loadFileByIndex ParseFile idx => (Swag.loadFileByIndex ParseFile pd idx).pd

/-- The registries reachable from `pd₀` by calls of the registry's methods. -/
inductive Reachable (pd₀ : PackageDefinitions) : PackageDefinitions → Prop where
  | start : Reachable pd₀ pd₀
  | call (pd : PackageDefinitions) (op : Op) : Reachable pd₀ pd → Reachable pd₀ (op.after pd)

/-- The two parallel slices of a registry have the same length. -/
def Aligned (pd : PackageDefinitions) : Prop :=
  pd.files.length = pd.filenames.length

instance (pd : PackageDefinitions) : Decidable (Aligned pd) := by
  unfold Aligned; infer_instance

/-- The index of the first element of `names` equal to `s`; the length of
`names` when there is none. -/
def firstIndex (s : GoString) : List GoString → Nat
  | [] => 0
  | name :: rest => if s = name then 0 else firstIndex s rest + 1

/-! ## Sample inputs -/

/-- A case table that leaves the code points above ASCII unchanged. -/
def plainTable : Char → Char := fun r => r

/-- A directory listing with one entry of each kind the filter separates. -/
def sampleListing : List FileInfo :=
  [⟨"a.go".toList, false⟩, ⟨"a_test.go".toList, false⟩, ⟨"B.GO".toList, false⟩,
   ⟨"c-gen.go".toList, false⟩, ⟨"README.md".toList, false⟩, ⟨"d.go".toList, false⟩]

/-- A file system whose every directory has the listing `sampleListing`. -/
def sampleReadDir : GoString → Except GoString (List FileInfo) :=
  fun _ => .ok sampleListing

/-- The registry built from `sampleListing` for the directory `pkg/`. -/
def sampleRegistry : PackageDefinitions :=
  { files := [none, none, none]
    filenames := ["a.go".toList, "B.GO".toList, "d.go".toList]
    TypeDefinitions := []
    ImportName := "pkg".toList
    ImportPath := "example.com/pkg".toList
    Dir := "pkg".toList }

/-- A parsed tree of package `pkg`. -/
def sampleTree : AstFile := ⟨1, ⟨"pkg".toList⟩⟩

/-- A second parsed tree of package `pkg`. -/
def otherTree : AstFile := ⟨2, ⟨"pkg".toList⟩⟩

/-- The sample registry after its first file has been loaded. -/
def loadedRegistry : PackageDefinitions :=
  { sampleRegistry with files := [some sampleTree, none, none] }

/-- A parser that succeeds with `sampleTree` on every path. -/
def goodParser : GoString → Option AstFile × Option GoString :=
  fun _ => (some sampleTree, none)

/-- A parser that fails on every path. -/
def badParser : GoString → Option AstFile × Option GoString :=
  fun _ => (none, some "expected declaration".toList)

/-- A listing that holds a sub-directory whose name passes the name filter. -/
def listingWithDir : List FileInfo :=
  [⟨"a.go".toList, false⟩, ⟨"x.go".toList, true⟩, ⟨"vendor".toList, true⟩]

/-- A listing of names that differ in the case of their suffix. -/
def mixedCaseListing : List FileInfo :=
  [⟨"x_test.go".toList, false⟩, ⟨"X_TEST.GO".toList, false⟩, ⟨"x_test.GO".toList, false⟩,
   ⟨"x-gen.go".toList, false⟩, ⟨"x-GEN.go".toList, false⟩, ⟨"X.GO".toList, false⟩]

/-- The package clause, file and type declarations of the sample package. -/
def pkgFile : AstFile := ⟨3, ⟨"pkg".toList⟩⟩

/-- The declaration `type Foo` at package scope of the sample package. -/
def fooDef : TypeSpecDef :=
  { File := some pkgFile
    TypeSpec := some ⟨⟨"Foo".toList⟩⟩
    PkgPath := "example.com/pkg".toList
    ParentSpec := none }

/-- The declaration `type Bar` inside the function `Baz` of the sample
package. -/
def barInBaz : TypeSpecDef :=
  { File := some pkgFile
    TypeSpec := some ⟨⟨"Bar".toList⟩⟩
    PkgPath := "example.com/pkg".toList
    ParentSpec := some (.funcDecl (some ⟨⟨"Baz".toList⟩⟩)) }

/-- The declaration `type Bar` inside the function `Qux` of the sample
package. -/
def barInQux : TypeSpecDef :=
  { barInBaz with ParentSpec := some (.funcDecl (some ⟨⟨"Qux".toList⟩⟩)) }

/-- A declaration `type Bar` at package scope of the sample package. -/
def barTop : TypeSpecDef :=
  { barInBaz with ParentSpec := some .genDecl }

/-- The declaration `type Bar` at package scope again, reached through another
tree of the package and recorded under another import path. -/
def barTopAgain : TypeSpecDef :=
  { File := some sampleTree
    TypeSpec := some ⟨⟨"Bar".toList⟩⟩
    PkgPath := "example.com/vendor/pkg".toList
    ParentSpec := none }

/-- A descriptor to which no declaration is bound. -/
def unboundDef : TypeSpecDef :=
  { File := some pkgFile
    TypeSpec := none
    PkgPath := "example.com/pkg".toList
    ParentSpec := none }

/-! ## Lemmas on the library routines -/

theorem hasSuffix_iff (s suffix : GoString) : HasSuffix s suffix = true ↔ suffix <:+ s := by
  unfold HasSuffix
  rw [List.suffix_iff_eq_drop]
  simp only [Bool.and_eq_true, decide_eq_true_eq]
  constructor
  · rintro ⟨_, h⟩
    exact h.symm
  · intro h
    refine ⟨?_, h.symm⟩
    have := congrArg List.length h
    simp only [List.length_drop] at this
    omega

theorem hasSuffix_cons (c : Char) (s suffix : GoString) (hne : suffix.head? ≠ some c) :
    HasSuffix (c :: s) suffix = HasSuffix s suffix := by
  rw [Bool.eq_iff_iff, hasSuffix_iff, hasSuffix_iff, List.suffix_cons_iff]
  constructor
  · rintro (h | h)
    · subst h
      simp at hne
    · exact h
  · exact Or.inr

theorem extScan_append_single (c : Char) (hc : c ≠ '.') (r : List Char) (seen : GoString) :
    extScan (r ++ [c]) seen = extScan r seen := by
  induction r generalizing seen with
  | nil =>
    simp only [List.nil_append, extScan, hc, if_false]
    split <;> rfl
  | cons d r ih =>
    rw [List.cons_append]
    simp only [extScan]
    rw [ih]

theorem ext_cons (c : Char) (hc : c ≠ '.') (s : GoString) : Ext (c :: s) = Ext s := by
  unfold Ext
  rw [List.reverse_cons, extScan_append_single c hc]

theorem trimPrefix_append (d x : GoString) : TrimPrefix (d ++ x) d = x := by
  unfold TrimPrefix HasPrefix
  simp

theorem includedName_cons (caseTable : Char → Char) (c : Char) (hc : c = '/' ∨ c = '\\')
    (s : GoString) : includedName caseTable (c :: s) = includedName caseTable s := by
  have h1 : c ≠ '.' := by rcases hc with h | h <;> subst h <;> decide
  have h2 : ("_test.go".toList).head? ≠ some c := by
    rcases hc with h | h <;> subst h <;> decide
  have h3 : ("-gen.go".toList).head? ≠ some c := by
    rcases hc with h | h <;> subst h <;> decide
  unfold includedName
  rw [ext_cons c h1, hasSuffix_cons c s _ h2, hasSuffix_cons c s _ h3]

theorem includedName_trimLeft (caseTable : Char → Char) (s : GoString) :
    includedName caseTable (TrimLeft s ['/', '\\']) = includedName caseTable s := by
  unfold TrimLeft
  induction s with
  | nil => rfl
  | cons c s ih =>
    rw [List.dropWhile_cons]
    split
    · rename_i h
      rw [ih, includedName_cons]
      simpa using h
    · rfl

/-! ## Lemmas on the constructor -/

theorem scanEntries_eq (caseTable : Char → Char) (fis : List FileInfo) (acc : List GoString) :
    scanEntries caseTable fis acc
      = acc ++ (fis.map FileInfo.Name).filter (includedName caseTable) := by
  induction fis generalizing acc with
  | nil => simp [scanEntries]
  | cons fi rest ih =>
    simp only [scanEntries, List.map_cons, List.filter_cons, includedName, ih]
    by_cases h1 : ToLower caseTable (Ext fi.Name) = ".go".toList
    · simp only [h1, ne_eq, not_true_eq_false, if_false, decide_True, Bool.true_and]
      cases HasSuffix fi.Name "_test.go".toList <;>
        cases HasSuffix fi.Name "-gen.go".toList <;> simp
    · simp only [h1, ne_eq, not_false_eq_true, if_true, decide_False, Bool.false_and]
      simp

theorem newPackageDefinitions_ok (caseTable : Char → Char)
    (readDir : GoString → Except GoString (List FileInfo))
    (importName importPath packageDir : GoString) (fis : List FileInfo)
    (h : readDir packageDir = .ok fis) :
    newPackageDefinitions caseTable readDir importName importPath packageDir
      = .ok { files := List.replicate
                ((fis.map FileInfo.Name).filter (includedName caseTable)).length none
              filenames := (fis.map FileInfo.Name).filter (includedName caseTable)
              TypeDefinitions := []
              ImportName := importName
              ImportPath := importPath
              Dir := TrimSuffix (TrimSuffix packageDir ['/']) ['\\'] } := by
  unfold newPackageDefinitions
  rw [h]
  simp only [scanEntries_eq, List.nil_append]

theorem trimSuffix_append_single (b : GoString) (c : Char) :
    TrimSuffix (b ++ [c]) [c] = b := by
  unfold TrimSuffix
  rw [if_pos ((hasSuffix_iff _ _).mpr (List.suffix_append b [c]))]
  simp

theorem trimSuffix_single_of_ne (b : GoString) (c : Char) (h : b.getLast? ≠ some c) :
    TrimSuffix b [c] = b := by
  unfold TrimSuffix
  rw [if_neg]
  intro hs
  obtain ⟨t, ht⟩ := (hasSuffix_iff _ _).mp hs
  apply h
  rw [← ht]
  simp

theorem scanEntries_names (caseTable : Char → Char) (fis fis' : List FileInfo)
    (h : fis'.map FileInfo.Name = fis.map FileInfo.Name) :
    scanEntries caseTable fis' [] = scanEntries caseTable fis [] := by
  rw [scanEntries_eq, scanEntries_eq, h]

/-! ## Lemmas on the loops of `mustAdd` and `findFile` -/

theorem firstIndex_lt_length (s : GoString) (names : List GoString) :
    firstIndex s names < names.length ↔ s ∈ names := by
  induction names with
  | nil => simp [firstIndex]
  | cons name rest ih =>
    unfold firstIndex
    by_cases h : s = name
    · simp [h]
    · simp [h, ih]

theorem firstIndex_le_length (s : GoString) (names : List GoString) :
    firstIndex s names ≤ names.length := by
  induction names with
  | nil => simp [firstIndex]
  | cons name rest ih =>
    unfold firstIndex
    split
    · omega
    · simpa using ih

theorem getElem?_firstIndex (s : GoString) (names : List GoString) (h : s ∈ names) :
    names[firstIndex s names]? = some s := by
  induction names with
  | nil => simp at h
  | cons name rest ih =>
    unfold firstIndex
    by_cases e : s = name
    · simp [e]
    · have hr : s ∈ rest := by simpa [e] using h
      simp [e, ih hr]

theorem getElem?_ne_of_lt_firstIndex (s : GoString) (names : List GoString) (j : Nat)
    (hj : j < firstIndex s names) : names[j]? ≠ some s := by
  induction names generalizing j with
  | nil => simp
  | cons name rest ih =>
    unfold firstIndex at hj
    by_cases e : s = name
    · simp [e] at hj
    · rw [if_neg e] at hj
      cases j with
      | zero =>
        simp only [List.getElem?_cons_zero, ne_eq, Option.some.injEq]
        exact fun h => e h.symm
      | succ j =>
        simp only [List.getElem?_cons_succ]
        exact ih j (by omega)

theorem firstIndex_eq_of_nodup (s : GoString) (names : List GoString) (i : Nat)
    (hnd : names.Nodup) (hi : names[i]? = some s) : firstIndex s names = i := by
  obtain ⟨hlt, hget⟩ := List.getElem?_eq_some.mp hi
  have hmem : s ∈ names := hget ▸ List.getElem_mem hlt
  obtain ⟨hlt', hget'⟩ := List.getElem?_eq_some.mp (getElem?_firstIndex s names hmem)
  exact (hnd.getElem_inj_iff).mp (hget'.trans hget.symm)

theorem mustAddLoop_eq (pd : PackageDefinitions) (s : GoString) (file : Option AstFile)
    (names : List GoString) (idx : Nat) :
    mustAddLoop pd s file names idx =
      if s ∈ names then
        some (if idx + firstIndex s names < pd.files.length then
            ⟨.ok (), { pd with files := pd.files.set (idx + firstIndex s names) file }, []⟩
          else ⟨.error .indexOutOfRange, pd, []⟩)
      else none := by
  induction names generalizing idx with
  | nil => simp [mustAddLoop]
  | cons name rest ih =>
    unfold mustAddLoop firstIndex
    by_cases h : s = name
    · subst h
      simp only [if_true, List.mem_cons, true_or, Nat.add_zero]
      split <;> rfl
    · rw [if_neg h, ih]
      simp only [List.mem_cons, h, false_or, if_false]
      have e : idx + 1 + firstIndex s rest = idx + (firstIndex s rest + 1) := by omega
      rw [e]

theorem findFileLoop_eq (pd : PackageDefinitions) (s : GoString)
    (names : List GoString) (idx : Nat) :
    findFileLoop pd s names idx =
      if s ∈ names then
        some (match pd.files[idx + firstIndex s names]? with
          | some f => ⟨.ok f, pd, []⟩
          | none => ⟨.error .indexOutOfRange, pd, []⟩)
      else none := by
  induction names generalizing idx with
  | nil => simp [findFileLoop]
  | cons name rest ih =>
    unfold findFileLoop firstIndex
    by_cases h : s = name
    · subst h
      simp only [if_true, List.mem_cons, true_or, Nat.add_zero]
      split <;> rfl
    · rw [if_neg h, ih]
      simp only [List.mem_cons, h, false_or, if_false]
      have e : idx + 1 + firstIndex s rest = idx + (firstIndex s rest + 1) := by omega
      rw [e]

theorem mustAdd_of_not_mem (pd : PackageDefinitions) (filename : GoString)
    (file : Option AstFile) (h : simpleFilename pd filename ∉ pd.filenames) :
    mustAdd pd filename file
      = ⟨.error (.error (filename ++ " isnot exist in the ".toList ++ pd.Dir)), pd, []⟩ := by
  unfold mustAdd
  rw [mustAddLoop_eq, if_neg h]

theorem mustAdd_of_mem (pd : PackageDefinitions) (filename : GoString)
    (file : Option AstFile) (hal : Aligned pd)
    (h : simpleFilename pd filename ∈ pd.filenames) :
    mustAdd pd filename file =
      ⟨.ok (),
        { pd with files := pd.files.set (firstIndex (simpleFilename pd filename) pd.filenames) file },
        []⟩ := by
  have hlt : firstIndex (simpleFilename pd filename) pd.filenames < pd.files.length := by
    rw [hal]
    exact (firstIndex_lt_length _ _).mpr h
  unfold mustAdd
  rw [mustAddLoop_eq, if_pos h]
  simp only [Nat.zero_add, if_pos hlt]

theorem findFile_of_not_mem (pd : PackageDefinitions) (filename : GoString)
    (h : simpleFilename pd filename ∉ pd.filenames) :
    findFile pd filename = ⟨.ok none, pd, []⟩ := by
  unfold findFile
  rw [findFileLoop_eq, if_neg h]

theorem findFile_of_mem (pd : PackageDefinitions) (filename : GoString) (f : Option AstFile)
    (h : simpleFilename pd filename ∈ pd.filenames)
    (hf : pd.files[firstIndex (simpleFilename pd filename) pd.filenames]? = some f) :
    findFile pd filename = ⟨.ok f, pd, []⟩ := by
  unfold findFile
  rw [findFileLoop_eq, if_pos h]
  simp only [Nat.zero_add, hf]

/-! ## Frame lemmas -/

theorem mustAdd_frame (pd : PackageDefinitions) (filename : GoString) (file : Option AstFile) :
    ∃ fs, (mustAdd pd filename file).pd = { pd with files := fs }
      ∧ fs.length = pd.files.length := by
  unfold mustAdd
  rw [mustAddLoop_eq]
  split_ifs
  · exact ⟨_, rfl, by simp⟩
  · exact ⟨pd.files, rfl, rfl⟩
  · exact ⟨pd.files, rfl, rfl⟩

theorem findFile_frame (pd : PackageDefinitions) (filename : GoString) :
    (findFile pd filename).pd = pd := by
  unfold findFile
  rw [findFileLoop_eq]
  split_ifs
  · dsimp only
    split <;> rfl
  · rfl

theorem loadFileByIndex_frame (ParseFile : GoString → Option AstFile × Option GoString)
    (pd : PackageDefinitions) (idx : Int) :
    ∃ fs, (loadFileByIndex ParseFile pd idx).pd = { pd with files := fs }
      ∧ fs.length = pd.files.length := by
  unfold loadFileByIndex
  split
  · exact ⟨pd.files, rfl, rfl⟩
  · exact ⟨pd.files, rfl, rfl⟩
  · split
    · exact ⟨pd.files, rfl, rfl⟩
    · dsimp only
      split
      · exact ⟨pd.files, rfl, rfl⟩
      · exact ⟨_, rfl, by simp⟩

theorem after_frame (pd : PackageDefinitions) (op : Op) :
    ∃ fs, op.after pd = { pd with files := fs } ∧ fs.length = pd.files.length := by
  cases op with
  | mustAdd filename file => exact mustAdd_frame pd filename file
  | findFile filename => exact ⟨pd.files, findFile_frame pd filename, rfl⟩
  | loadFileByIndex ParseFile idx => exact loadFileByIndex_frame ParseFile pd idx

theorem reachable_frame (pd₀ pd : PackageDefinitions) (h : Reachable pd₀ pd) :
    ∃ fs, pd = { pd₀ with files := fs } ∧ fs.length = pd₀.files.length := by
  induction h with
  | start => exact ⟨pd₀.files, rfl, rfl⟩
  | call pd op _ ih =>
    obtain ⟨fs, hfs, hlen⟩ := ih
    obtain ⟨gs, hgs, hglen⟩ := after_frame pd op
    refine ⟨gs, ?_, ?_⟩
    · rw [hgs, hfs]
    · rw [hglen, hfs]
      exact hlen

/-! ## Lemmas on `loadFileByIndex` -/

theorem index_eq_some {α : Type} (s : List α) (idx : Int) (a : α) (h : index s idx = some a) :
    0 ≤ idx ∧ idx.toNat < s.length ∧ s[idx.toNat]? = some a := by
  unfold index at h
  split at h
  · simp at h
  · refine ⟨by omega, ?_, h⟩
    by_contra hlt
    rw [List.getElem?_eq_none (by omega)] at h
    simp at h

theorem index_set {α : Type} (s : List α) (idx : Int) (a b : α) (h : index s idx = some a) :
    index (s.set idx.toNat b) idx = some b := by
  obtain ⟨h0, hlt, _⟩ := index_eq_some s idx a h
  unfold index
  rw [if_neg (by omega)]
  simp [List.getElem?_set, hlt]

theorem loadFileByIndex_of_populated (ParseFile : GoString → Option AstFile × Option GoString)
    (pd : PackageDefinitions) (idx : Int) (tree : AstFile)
    (hslot : index pd.files idx = some (some tree)) :
    loadFileByIndex ParseFile pd idx = ⟨.ok ⟨some tree, false, none⟩, pd, []⟩ := by
  unfold loadFileByIndex
  rw [hslot]

theorem loadFileByIndex_of_parsed (ParseFile : GoString → Option AstFile × Option GoString)
    (pd : PackageDefinitions) (idx : Int) (name : GoString) (fileTree : Option AstFile)
    (hslot : index pd.files idx = some none)
    (hname : index pd.filenames idx = some name)
    (hparse : ParseFile (Join pd.Dir name) = (fileTree, none)) :
    loadFileByIndex ParseFile pd idx =
      ⟨.ok ⟨fileTree, true, none⟩, { pd with files := pd.files.set idx.toNat fileTree },
        [Join pd.Dir name]⟩ := by
  unfold loadFileByIndex
  rw [hslot]
  simp only [hname, hparse]

theorem loadFileByIndex_of_failed (ParseFile : GoString → Option AstFile × Option GoString)
    (pd : PackageDefinitions) (idx : Int) (name : GoString) (fileTree : Option AstFile)
    (err : GoString)
    (hslot : index pd.files idx = some none)
    (hname : index pd.filenames idx = some name)
    (hparse : ParseFile (Join pd.Dir name) = (fileTree, some err)) :
    loadFileByIndex ParseFile pd idx =
      ⟨.ok ⟨none, false, some ("cannot parse source files ".toList ++ Join pd.Dir name
          ++ ": ".toList ++ err)⟩, pd, [Join pd.Dir name]⟩ := by
  unfold loadFileByIndex
  rw [hslot]
  simp only [hname, hparse]

theorem loadFileByIndex_parsed_of_empty (ParseFile : GoString → Option AstFile × Option GoString)
    (pd : PackageDefinitions) (idx : Int) (name : GoString)
    (hslot : index pd.files idx = some none)
    (hname : index pd.filenames idx = some name) :
    (loadFileByIndex ParseFile pd idx).parsed = [Join pd.Dir name] := by
  rcases hp : ParseFile (Join pd.Dir name) with ⟨fileTree, _ | err⟩
  · rw [loadFileByIndex_of_parsed ParseFile pd idx name fileTree hslot hname hp]
  · rw [loadFileByIndex_of_failed ParseFile pd idx name fileTree err hslot hname hp]

/-! ## Lemmas on path normalisation -/

theorem hasPrefix_iff (s pre : GoString) : HasPrefix s pre = true ↔ pre <+: s := by
  unfold HasPrefix
  rw [List.prefix_iff_eq_take]
  simp only [Bool.and_eq_true, decide_eq_true_eq]
  constructor
  · rintro ⟨_, h⟩
    exact h.symm
  · intro h
    refine ⟨?_, h.symm⟩
    have := congrArg List.length h
    simp only [List.length_take] at this
    omega

theorem simpleFilename_eq (pd : PackageDefinitions) (filename : GoString) :
    simpleFilename pd filename =
      (if pd.Dir <+: filename then filename.drop pd.Dir.length else filename).dropWhile
        (fun c => decide (c = '/' ∨ c = '\\')) := by
  unfold simpleFilename TrimLeft TrimPrefix
  have hp : (fun c : Char => decide (c ∈ ['/', '\\'])) = fun c => decide (c = '/' ∨ c = '\\') := by
    funext c
    simp
  rw [hp]
  by_cases h : pd.Dir <+: filename
  · rw [if_pos h, if_pos ((hasPrefix_iff _ _).mpr h)]
  · rw [if_neg h, if_neg (fun h' => h ((hasPrefix_iff _ _).mp h'))]

theorem simpleFilename_frame (pd : PackageDefinitions) (fs : List (Option AstFile))
    (filename : GoString) :
    simpleFilename { pd with files := fs } filename = simpleFilename pd filename := rfl

/-! ## The constructor -/

/-- C1. When the directory can be listed, `newPackageDefinitions` succeeds and
the filename sequence of the registry is the listing filtered, in listing
order, by the inclusion rule: a name is tracked iff it is in the listing, its
lower-cased extension is `.go`, and it ends neither with `_test.go` nor with
`-gen.go`. -/
theorem newPackageDefinitions_filenames (caseTable : Char → Char)
    (readDir : GoString → Except GoString (List FileInfo))
    (importName importPath packageDir : GoString) (fis : List FileInfo)
    (h : readDir packageDir = .ok fis) :
    ∃ pd, newPackageDefinitions caseTable readDir importName importPath packageDir = .ok pd
      ∧ pd.filenames = (fis.map FileInfo.Name).filter (includedName caseTable)
      ∧ ∀ name, name ∈ pd.filenames ↔
          name ∈ fis.map FileInfo.Name
            ∧ ToLower caseTable (Ext name) = ".go".toList
            ∧ HasSuffix name "_test.go".toList = false
            ∧ HasSuffix name "-gen.go".toList = false := by
  refine ⟨_, newPackageDefinitions_ok caseTable readDir importName importPath packageDir fis h,
    rfl, ?_⟩
  intro name
  simp only [List.mem_filter, includedName, Bool.and_eq_true, decide_eq_true_eq,
    Bool.not_eq_true', and_assoc]

/-- C1, at the sample listing: of the six entries exactly `a.go`, `B.GO` and
`d.go` are tracked, in that order. -/
theorem newPackageDefinitions_filenames_witness :
    sampleReadDir "pkg/".toList = .ok sampleListing
      ∧ newPackageDefinitions plainTable sampleReadDir "pkg".toList
          "example.com/pkg".toList "pkg/".toList = .ok sampleRegistry
      ∧ sampleRegistry.filenames = ["a.go".toList, "B.GO".toList, "d.go".toList]
      ∧ ∃ pd, newPackageDefinitions plainTable sampleReadDir "pkg".toList
            "example.com/pkg".toList "pkg/".toList = .ok pd
          ∧ pd.filenames = (sampleListing.map FileInfo.Name).filter (includedName plainTable)
          ∧ ∀ name, name ∈ pd.filenames ↔
              name ∈ sampleListing.map FileInfo.Name
                ∧ ToLower plainTable (Ext name) = ".go".toList
                ∧ HasSuffix name "_test.go".toList = false
                ∧ HasSuffix name "-gen.go".toList = false :=
  ⟨rfl, rfl, rfl, newPackageDefinitions_filenames plainTable sampleReadDir "pkg".toList
    "example.com/pkg".toList "pkg/".toList sampleListing rfl⟩

/-- C2. The registry built from a listing with `N` names passing the filter
has `fileCount() = N` (and the other `M` names of the listing are the rest of
it), and in every registry reachable from it by calls of its methods,
`findFile` on `Dir + "/" + name` returns nil for each name of the listing
that does not pass the filter. -/
theorem excluded_names_absent (caseTable : Char → Char)
    (readDir : GoString → Except GoString (List FileInfo))
    (importName importPath packageDir : GoString) (fis : List FileInfo)
    (h : readDir packageDir = .ok fis) :
    ∃ pd₀, newPackageDefinitions caseTable readDir importName importPath packageDir = .ok pd₀
      ∧ fileCount pd₀ = ((fis.map FileInfo.Name).countP (includedName caseTable) : Nat)
      ∧ (fis.map FileInfo.Name).countP (includedName caseTable)
          + (fis.map FileInfo.Name).countP (fun name => !includedName caseTable name)
          = fis.length
      ∧ ∀ pd, Reachable pd₀ pd → ∀ name ∈ fis.map FileInfo.Name,
          includedName caseTable name = false →
          findFile pd (pd.Dir ++ '/' :: name) = ⟨.ok none, pd, []⟩ := by
  refine ⟨_, newPackageDefinitions_ok caseTable readDir importName importPath packageDir fis h,
    ?_, ?_, ?_⟩
  · simp only [fileCount, List.countP_eq_length_filter]
  · have := List.length_eq_countP_add_countP (includedName caseTable) (fis.map FileInfo.Name)
    simp only [List.length_map] at this
    rw [this]
    congr 1
    apply List.countP_congr
    intro name _
    simp
  · intro pd hpd name _ hex
    obtain ⟨fs, hfs, _⟩ := reachable_frame _ pd hpd
    apply findFile_of_not_mem
    have hs : simpleFilename pd (pd.Dir ++ '/' :: name) = TrimLeft ('/' :: name) ['/', '\\'] := by
      unfold simpleFilename
      rw [trimPrefix_append]
    rw [hs, hfs]
    simp only [List.mem_filter, not_and]
    intro _
    rw [includedName_trimLeft, includedName_cons caseTable '/' (Or.inl rfl), hex]
    simp

/-- C2, at the sample listing. -/
theorem excluded_names_absent_witness :
    sampleReadDir "pkg/".toList = .ok sampleListing
      ∧ ∃ pd₀, newPackageDefinitions plainTable sampleReadDir "pkg".toList
            "example.com/pkg".toList "pkg/".toList = .ok pd₀
          ∧ fileCount pd₀
              = ((sampleListing.map FileInfo.Name).countP (includedName plainTable) : Nat)
          ∧ (sampleListing.map FileInfo.Name).countP (includedName plainTable)
              + (sampleListing.map FileInfo.Name).countP
                  (fun name => !includedName plainTable name)
              = sampleListing.length
          ∧ ∀ pd, Reachable pd₀ pd → ∀ name ∈ sampleListing.map FileInfo.Name,
              includedName plainTable name = false →
              findFile pd (pd.Dir ++ '/' :: name) = ⟨.ok none, pd, []⟩ :=
  ⟨rfl, excluded_names_absent plainTable sampleReadDir "pkg".toList
    "example.com/pkg".toList "pkg/".toList sampleListing rfl⟩

/-! ## Loading by index -/

/-- C3. Two calls of `loadFileByIndex` on an in-range index whose slot is empty
and whose file parses successfully: both return the tree the parser produced
and no error; the first call reports fresh parsing, hands the file path to the
parser and stores the tree; the second reports a cached tree and, whatever the
parser would answer, does not consult it. -/
theorem loadFileByIndex_twice (ParseFile₁ ParseFile₂ : GoString → Option AstFile × Option GoString)
    (pd : PackageDefinitions) (idx : Int) (name : GoString) (tree : AstFile)
    (hslot : index pd.files idx = some none)
    (hname : index pd.filenames idx = some name)
    (hparse : ParseFile₁ (Join pd.Dir name) = (some tree, none)) :
    loadFileByIndex ParseFile₁ pd idx =
        ⟨.ok ⟨some tree, true, none⟩, { pd with files := pd.files.set idx.toNat (some tree) },
          [Join pd.Dir name]⟩
      ∧ loadFileByIndex ParseFile₂ (loadFileByIndex ParseFile₁ pd idx).pd idx =
        ⟨.ok ⟨some tree, false, none⟩, (loadFileByIndex ParseFile₁ pd idx).pd, []⟩ := by
  have h1 := loadFileByIndex_of_parsed ParseFile₁ pd idx name (some tree) hslot hname hparse
  refine ⟨h1, ?_⟩
  rw [h1]
  exact loadFileByIndex_of_populated ParseFile₂ _ idx tree (index_set _ idx _ _ hslot)

/-- C3, on the sample registry: slot 1 is loaded with a parser that succeeds,
then asked again with a parser that would fail. -/
theorem loadFileByIndex_twice_witness :
    index sampleRegistry.files 1 = some none
      ∧ index sampleRegistry.filenames 1 = some "B.GO".toList
      ∧ goodParser (Join sampleRegistry.Dir "B.GO".toList) = (some sampleTree, none)
      ∧ loadFileByIndex goodParser sampleRegistry 1 =
          ⟨.ok ⟨some sampleTree, true, none⟩,
            { sampleRegistry with
              files := sampleRegistry.files.set (1 : Int).toNat (some sampleTree) },
            [Join sampleRegistry.Dir "B.GO".toList]⟩
      ∧ loadFileByIndex badParser (loadFileByIndex goodParser sampleRegistry 1).pd 1 =
          ⟨.ok ⟨some sampleTree, false, none⟩, (loadFileByIndex goodParser sampleRegistry 1).pd,
            []⟩ :=
  ⟨rfl, rfl, rfl,
    loadFileByIndex_twice goodParser badParser sampleRegistry 1 "B.GO".toList sampleTree
      rfl rfl rfl⟩

/-- C4. When the parser reports an error for the file of an empty in-range
slot, `loadFileByIndex` returns no tree, flag false and an error that carries
the file path and the parser's message, and the registry is unchanged. A
following call on the same index hands the path to the parser again, and
returns the freshly parsed tree when the parser then succeeds. -/
theorem loadFileByIndex_failure_not_cached
    (ParseFile₁ ParseFile₂ : GoString → Option AstFile × Option GoString)
    (pd : PackageDefinitions) (idx : Int) (name : GoString) (fileTree : Option AstFile)
    (err : GoString)
    (hslot : index pd.files idx = some none)
    (hname : index pd.filenames idx = some name)
    (hparse : ParseFile₁ (Join pd.Dir name) = (fileTree, some err)) :
    loadFileByIndex ParseFile₁ pd idx =
        ⟨.ok ⟨none, false, some ("cannot parse source files ".toList ++ Join pd.Dir name
            ++ ": ".toList ++ err)⟩, pd, [Join pd.Dir name]⟩
      ∧ (loadFileByIndex ParseFile₂ (loadFileByIndex ParseFile₁ pd idx).pd idx).parsed
          = [Join pd.Dir name]
      ∧ ∀ tree : AstFile, ParseFile₂ (Join pd.Dir name) = (some tree, none) →
          loadFileByIndex ParseFile₂ (loadFileByIndex ParseFile₁ pd idx).pd idx =
            ⟨.ok ⟨some tree, true, none⟩,
              { pd with files := pd.files.set idx.toNat (some tree) }, [Join pd.Dir name]⟩ := by
  have h1 := loadFileByIndex_of_failed ParseFile₁ pd idx name fileTree err hslot hname hparse
  refine ⟨h1, ?_, ?_⟩
  · rw [h1]
    exact loadFileByIndex_parsed_of_empty ParseFile₂ pd idx name hslot hname
  · intro tree h2
    rw [h1]
    exact loadFileByIndex_of_parsed ParseFile₂ pd idx name (some tree) hslot hname h2

/-- C4, on the sample registry: slot 1 is loaded with a parser that fails, then
with one that succeeds. -/
theorem loadFileByIndex_failure_not_cached_witness :
    index sampleRegistry.files 1 = some none
      ∧ index sampleRegistry.filenames 1 = some "B.GO".toList
      ∧ badParser (Join sampleRegistry.Dir "B.GO".toList)
          = (none, some "expected declaration".toList)
      ∧ (loadFileByIndex badParser sampleRegistry 1 =
          ⟨.ok ⟨none, false, some ("cannot parse source files ".toList
              ++ Join sampleRegistry.Dir "B.GO".toList ++ ": ".toList
              ++ "expected declaration".toList)⟩,
            sampleRegistry, [Join sampleRegistry.Dir "B.GO".toList]⟩
        ∧ (loadFileByIndex goodParser (loadFileByIndex badParser sampleRegistry 1).pd 1).parsed
            = [Join sampleRegistry.Dir "B.GO".toList]
        ∧ ∀ tree : AstFile,
            goodParser (Join sampleRegistry.Dir "B.GO".toList) = (some tree, none) →
            loadFileByIndex goodParser (loadFileByIndex badParser sampleRegistry 1).pd 1 =
              ⟨.ok ⟨some tree, true, none⟩,
                { sampleRegistry with
                  files := sampleRegistry.files.set (1 : Int).toNat (some tree) },
                [Join sampleRegistry.Dir "B.GO".toList]⟩) :=
  ⟨rfl, rfl, rfl,
    loadFileByIndex_failure_not_cached badParser goodParser sampleRegistry 1 "B.GO".toList
      none "expected declaration".toList rfl rfl rfl⟩

/-- C5. When the slot of an in-range index holds a tree, however it was stored,
`loadFileByIndex` returns exactly that tree with flag false and no error, does
not consult the parser, and leaves the registry unchanged. -/
theorem loadFileByIndex_cached (ParseFile : GoString → Option AstFile × Option GoString)
    (pd : PackageDefinitions) (idx : Int) (tree : AstFile)
    (hslot : index pd.files idx = some (some tree)) :
    loadFileByIndex ParseFile pd idx = ⟨.ok ⟨some tree, false, none⟩, pd, []⟩ :=
  loadFileByIndex_of_populated ParseFile pd idx tree hslot

/-- C5, on the sample registry after `mustAdd` has stored a tree parsed
elsewhere under `pkg/a.go`: the tree is returned although the parser would
fail. -/
theorem loadFileByIndex_cached_witness :
    index (mustAdd sampleRegistry "pkg/a.go".toList (some otherTree)).pd.files 0
        = some (some otherTree)
      ∧ loadFileByIndex badParser
          (mustAdd sampleRegistry "pkg/a.go".toList (some otherTree)).pd 0
        = ⟨.ok ⟨some otherTree, false, none⟩,
            (mustAdd sampleRegistry "pkg/a.go".toList (some otherTree)).pd, []⟩ :=
  ⟨rfl, loadFileByIndex_cached badParser _ 0 otherTree rfl⟩

/-! ## Injection and lookup -/

/-- C6. On a registry whose two slices are aligned, `mustAdd` panics iff no
tracked filename equals the normalised path, i.e. the path with the prefix
`Dir` removed once and then all leading `/` and `\` removed. The panic carries
the error built from the path and `Dir` and leaves the registry as it was;
otherwise the call returns normally (it has no error result). -/
theorem mustAdd_panics_iff (pd : PackageDefinitions) (filename : GoString)
    (file : Option AstFile) (hal : Aligned pd) :
    simpleFilename pd filename =
        (if pd.Dir <+: filename then filename.drop pd.Dir.length else filename).dropWhile
          (fun c => decide (c = '/' ∨ c = '\\'))
      ∧ ((∃ p, (mustAdd pd filename file).result = .error p)
          ↔ simpleFilename pd filename ∉ pd.filenames)
      ∧ (simpleFilename pd filename ∉ pd.filenames →
          mustAdd pd filename file =
            ⟨.error (.error (filename ++ " isnot exist in the ".toList ++ pd.Dir)), pd, []⟩)
      ∧ (simpleFilename pd filename ∈ pd.filenames →
          (mustAdd pd filename file).result = .ok ())
      ∧ ∀ p, (mustAdd pd filename file).result = .error p →
          (mustAdd pd filename file).pd = pd := by
  have hin : simpleFilename pd filename ∈ pd.filenames →
      (mustAdd pd filename file).result = .ok () := by
    intro h
    rw [mustAdd_of_mem pd filename file hal h]
  have hout := mustAdd_of_not_mem pd filename file
  refine ⟨simpleFilename_eq pd filename, ⟨?_, ?_⟩, hout, hin, ?_⟩
  · rintro ⟨p, hp⟩ hmem
    rw [hin hmem] at hp
    cases hp
  · intro h
    rw [hout h]
    exact ⟨_, rfl⟩
  · intro p hp
    by_cases h : simpleFilename pd filename ∈ pd.filenames
    · rw [hin h] at hp
      cases hp
    · rw [hout h]

/-- C6, on the sample registry. -/
theorem mustAdd_panics_iff_witness :
    Aligned sampleRegistry
      ∧ mustAdd sampleRegistry "pkg/zzz.go".toList (some sampleTree) =
          ⟨.error (.error "pkg/zzz.go isnot exist in the pkg".toList), sampleRegistry, []⟩
      ∧ (mustAdd sampleRegistry "pkg/a.go".toList (some sampleTree)).result = .ok () :=
  ⟨by decide,
    (mustAdd_panics_iff sampleRegistry "pkg/zzz.go".toList (some sampleTree)
      (by decide)).2.2.1 (by decide),
    (mustAdd_panics_iff sampleRegistry "pkg/a.go".toList (some sampleTree)
      (by decide)).2.2.2.1 (by decide)⟩

/-- C7. On an aligned registry, when the normalised path equals a tracked
filename, `mustAdd` returns normally, the slot of the first such filename
holds the given tree afterwards whatever it held before, every other slot is
as it was, and `findFile` on the same path then returns exactly that tree. -/
theorem mustAdd_then_findFile (pd : PackageDefinitions) (filename : GoString)
    (file : Option AstFile) (hal : Aligned pd)
    (hmem : simpleFilename pd filename ∈ pd.filenames) :
    (mustAdd pd filename file).result = .ok ()
      ∧ pd.filenames[firstIndex (simpleFilename pd filename) pd.filenames]?
          = some (simpleFilename pd filename)
      ∧ (∀ j, j < firstIndex (simpleFilename pd filename) pd.filenames →
          pd.filenames[j]? ≠ some (simpleFilename pd filename))
      ∧ (mustAdd pd filename file).pd.files[firstIndex (simpleFilename pd filename) pd.filenames]?
          = some file
      ∧ (∀ j, j ≠ firstIndex (simpleFilename pd filename) pd.filenames →
          (mustAdd pd filename file).pd.files[j]? = pd.files[j]?)
      ∧ (mustAdd pd filename file).pd = { pd with files := (mustAdd pd filename file).pd.files }
      ∧ findFile (mustAdd pd filename file).pd filename
          = ⟨.ok file, (mustAdd pd filename file).pd, []⟩ := by
  have hlt : firstIndex (simpleFilename pd filename) pd.filenames < pd.files.length := by
    rw [hal]
    exact (firstIndex_lt_length _ _).mpr hmem
  have hslot : (pd.files.set (firstIndex (simpleFilename pd filename) pd.filenames) file)[
      firstIndex (simpleFilename pd filename) pd.filenames]? = some file := by
    simp [List.getElem?_set, hlt]
  rw [mustAdd_of_mem pd filename file hal hmem]
  refine ⟨rfl, getElem?_firstIndex _ _ hmem,
    fun j hj => getElem?_ne_of_lt_firstIndex _ _ j hj, hslot, ?_, rfl, ?_⟩
  · intro j hj
    simp only [List.getElem?_set]
    rw [if_neg (fun e => hj e.symm)]
  · exact findFile_of_mem _ filename file hmem hslot

/-- C7, on the registry whose first slot is already populated: the tree stored
under `pkg/a.go` replaces it and is what `findFile` returns. -/
theorem mustAdd_then_findFile_witness :
    Aligned loadedRegistry
      ∧ simpleFilename loadedRegistry "pkg/a.go".toList ∈ loadedRegistry.filenames
      ∧ (mustAdd loadedRegistry "pkg/a.go".toList (some otherTree)).pd.files
          = [some otherTree, none, none]
      ∧ findFile (mustAdd loadedRegistry "pkg/a.go".toList (some otherTree)).pd
            "pkg/a.go".toList
          = ⟨.ok (some otherTree),
              (mustAdd loadedRegistry "pkg/a.go".toList (some otherTree)).pd, []⟩ :=
  ⟨by decide, by decide, rfl,
    (mustAdd_then_findFile loadedRegistry "pkg/a.go".toList (some otherTree)
      (by decide) (by decide)).2.2.2.2.2.2⟩

/-- C8. On an aligned registry `findFile` always returns normally, does not
change the registry and does not consult the parser. Its result is a tree
exactly when the normalised path equals a tracked filename and the slot of the
first such filename holds that tree; it is nil exactly when no tracked
filename matches or that slot is empty. When the tracked filenames are
pairwise distinct, the result is the content of the slot of the matching
filename. -/
theorem findFile_total (pd : PackageDefinitions) (filename : GoString) (hal : Aligned pd) :
    (findFile pd filename).pd = pd
      ∧ (findFile pd filename).parsed = []
      ∧ ∃ r, (findFile pd filename).result = .ok r
        ∧ (∀ tree, r = some tree ↔
            simpleFilename pd filename ∈ pd.filenames
              ∧ pd.files[firstIndex (simpleFilename pd filename) pd.filenames]?
                  = some (some tree))
        ∧ (r = none ↔
            simpleFilename pd filename ∉ pd.filenames
              ∨ pd.files[firstIndex (simpleFilename pd filename) pd.filenames]? = some none)
        ∧ ∀ i : Nat, pd.filenames.Nodup →
            pd.filenames[i]? = some (simpleFilename pd filename) → pd.files[i]? = some r := by
  have huniq : ∀ i : Nat, pd.filenames.Nodup → pd.filenames[i]? = some (simpleFilename pd filename) →
      firstIndex (simpleFilename pd filename) pd.filenames = i :=
    fun i hnd hi => firstIndex_eq_of_nodup _ _ i hnd hi
  by_cases hmem : simpleFilename pd filename ∈ pd.filenames
  · have hlt : firstIndex (simpleFilename pd filename) pd.filenames < pd.files.length := by
      rw [hal]
      exact (firstIndex_lt_length _ _).mpr hmem
    obtain ⟨f, hf⟩ : ∃ f, pd.files[firstIndex (simpleFilename pd filename) pd.filenames]?
        = some f := ⟨_, List.getElem?_eq_getElem hlt⟩
    rw [findFile_of_mem pd filename f hmem hf]
    refine ⟨rfl, rfl, f, rfl, ?_, ?_, ?_⟩
    · intro tree
      simp [hmem, hf]
    · simp [hmem, hf]
    · intro i hnd hi
      rw [← huniq i hnd hi]
      exact hf
  · rw [findFile_of_not_mem pd filename hmem]
    refine ⟨rfl, rfl, none, rfl, ?_, ?_, ?_⟩
    · intro tree
      simp [hmem]
    · simp [hmem]
    · intro i _ hi
      obtain ⟨hlt, hget⟩ := List.getElem?_eq_some.mp hi
      exact absurd (hget ▸ List.getElem_mem hlt) hmem

/-- C8, on the registry whose first slot is populated: a loaded file is found,
a tracked file that is not loaded and an untracked file give nil. -/
theorem findFile_total_witness :
    Aligned loadedRegistry
      ∧ (findFile loadedRegistry "pkg/a.go".toList).result = .ok (some sampleTree)
      ∧ (findFile loadedRegistry "pkg/d.go".toList).result = .ok none
      ∧ (findFile loadedRegistry "pkg/a_test.go".toList).result = .ok none
      ∧ (findFile loadedRegistry "pkg/a.go".toList).pd = loadedRegistry :=
  ⟨by decide, rfl, rfl, rfl, (findFile_total loadedRegistry "pkg/a.go".toList (by decide)).1⟩

/-! ## Invariants of the slots -/

theorem mustAdd_files_of_ne (pd : PackageDefinitions) (filename : GoString)
    (file : Option AstFile) (j : Nat)
    (hj : j ≠ firstIndex (simpleFilename pd filename) pd.filenames) :
    (mustAdd pd filename file).pd.files[j]? = pd.files[j]? := by
  unfold mustAdd
  rw [mustAddLoop_eq]
  split_ifs
  · simp only [Nat.zero_add, List.getElem?_set]
    rw [if_neg (fun e => hj e.symm)]
  · rfl
  · rfl

theorem loadFileByIndex_files_of_populated
    (ParseFile : GoString → Option AstFile × Option GoString)
    (pd : PackageDefinitions) (idx : Int) (j : Nat) (tree : AstFile)
    (h : pd.files[j]? = some (some tree)) :
    (loadFileByIndex ParseFile pd idx).pd.files[j]? = some (some tree) := by
  unfold loadFileByIndex
  split
  · exact h
  · exact h
  · rename_i hslot
    split
    · exact h
    · dsimp only
      split
      · exact h
      · obtain ⟨_, _, hget⟩ := index_eq_some _ _ _ hslot
        have hne : idx.toNat ≠ j := by
          intro e
          rw [e, h] at hget
          cases hget
        simp only [List.getElem?_set]
        rw [if_neg hne]
        exact h

/-- C9, as stated, fails: in the registry built from the sample listing, slot 0
is populated by `loadFileByIndex` and then holds a different tree after
`mustAdd` on the path of the same file. -/
theorem populated_slot_overwritten :
    newPackageDefinitions plainTable sampleReadDir "pkg".toList "example.com/pkg".toList
        "pkg/".toList = .ok sampleRegistry
      ∧ (loadFileByIndex goodParser sampleRegistry 0).pd = loadedRegistry
      ∧ loadedRegistry.files[0]? = some (some sampleTree)
      ∧ (mustAdd loadedRegistry "pkg/a.go".toList (some otherTree)).result = .ok ()
      ∧ (mustAdd loadedRegistry "pkg/a.go".toList (some otherTree)).pd.files[0]?
          = some (some otherTree)
      ∧ sampleTree ≠ otherTree
      ∧ ¬ ∀ (pd : PackageDefinitions) (op : Op) (j : Nat) (tree : AstFile), Aligned pd →
          pd.files[j]? = some (some tree) → (op.after pd).files[j]? = some (some tree) := by
  refine ⟨rfl, rfl, rfl, rfl, rfl, by decide, ?_⟩
  intro hall
  have h := hall loadedRegistry (.mustAdd "pkg/a.go".toList (some otherTree)) 0 sampleTree
    (by decide) rfl
  revert h
  decide

/-- C9, amended. A slot that holds a tree holds the same tree after `findFile`
and after `loadFileByIndex`, with any arguments and any parser; after `mustAdd`
it holds the same tree unless it is the slot of the first filename equal to
the normalised path, which `mustAdd` overwrites. -/
theorem populated_slot_stable (pd : PackageDefinitions) (j : Nat) (tree : AstFile)
    (h : pd.files[j]? = some (some tree)) :
    (∀ filename, (findFile pd filename).pd.files[j]? = some (some tree))
      ∧ (∀ ParseFile idx, (loadFileByIndex ParseFile pd idx).pd.files[j]? = some (some tree))
      ∧ ∀ filename file, j ≠ firstIndex (simpleFilename pd filename) pd.filenames →
          (mustAdd pd filename file).pd.files[j]? = some (some tree) := by
  refine ⟨?_, ?_, ?_⟩
  · intro filename
    rw [findFile_frame]
    exact h
  · intro ParseFile idx
    exact loadFileByIndex_files_of_populated ParseFile pd idx j tree h
  · intro filename file hj
    rw [mustAdd_files_of_ne pd filename file j hj]
    exact h

/-- C9, amended, on the registry whose first slot is populated. -/
theorem populated_slot_stable_witness :
    loadedRegistry.files[0]? = some (some sampleTree)
      ∧ (∀ filename, (findFile loadedRegistry filename).pd.files[0]? = some (some sampleTree))
      ∧ (∀ ParseFile idx,
          (loadFileByIndex ParseFile loadedRegistry idx).pd.files[0]? = some (some sampleTree))
      ∧ ∀ filename file,
          0 ≠ firstIndex (simpleFilename loadedRegistry filename) loadedRegistry.filenames →
          (mustAdd loadedRegistry filename file).pd.files[0]? = some (some sampleTree) :=
  ⟨rfl, populated_slot_stable loadedRegistry 0 sampleTree rfl⟩

/-- C10. The registry returned by `newPackageDefinitions` has every slot empty
and as many slots as filenames; every call of `mustAdd`, `findFile` or
`loadFileByIndex`, returning or not, leaves the number of slots and the
filename sequence as they were, so the two lengths stay equal in every
registry reachable from the constructed one. -/
theorem slots_aligned (caseTable : Char → Char)
    (readDir : GoString → Except GoString (List FileInfo))
    (importName importPath packageDir : GoString) (fis : List FileInfo)
    (h : readDir packageDir = .ok fis) :
    (∃ pd₀, newPackageDefinitions caseTable readDir importName importPath packageDir = .ok pd₀
        ∧ (∀ i, i < pd₀.filenames.length → pd₀.files[i]? = some none)
        ∧ pd₀.files.length = pd₀.filenames.length
        ∧ ∀ pd, Reachable pd₀ pd → pd.files.length = pd.filenames.length)
      ∧ ∀ (pd : PackageDefinitions) (op : Op),
          (op.after pd).files.length = pd.files.length
            ∧ (op.after pd).filenames = pd.filenames
            ∧ (pd.files.length = pd.filenames.length →
                (op.after pd).files.length = (op.after pd).filenames.length) := by
  constructor
  · refine ⟨_, newPackageDefinitions_ok caseTable readDir importName importPath packageDir
      fis h, ?_, ?_, ?_⟩
    · intro i hi
      simp only [List.getElem?_replicate]
      rw [if_pos hi]
    · simp
    · intro pd hpd
      obtain ⟨fs, hfs, hlen⟩ := reachable_frame _ pd hpd
      rw [hfs]
      simpa using hlen
  · intro pd op
    obtain ⟨fs, hfs, hlen⟩ := after_frame pd op
    rw [hfs]
    exact ⟨hlen, rfl, fun hal => hlen.trans hal⟩

/-- C10, at the sample listing. -/
theorem slots_aligned_witness :
    sampleReadDir "pkg/".toList = .ok sampleListing
      ∧ (∃ pd₀, newPackageDefinitions plainTable sampleReadDir "pkg".toList
            "example.com/pkg".toList "pkg/".toList = .ok pd₀
          ∧ (∀ i, i < pd₀.filenames.length → pd₀.files[i]? = some none)
          ∧ pd₀.files.length = pd₀.filenames.length
          ∧ ∀ pd, Reachable pd₀ pd → pd.files.length = pd.filenames.length) :=
  ⟨rfl, (slots_aligned plainTable sampleReadDir "pkg".toList "example.com/pkg".toList
    "pkg/".toList sampleListing rfl).1⟩

/-! ## The frame of the operations -/

/-- C11. In every registry reachable from a registry by calls of `mustAdd`,
`findFile` and `loadFileByIndex`, returning or not, the filename sequence,
`Dir`, `ImportName`, `ImportPath` and `TypeDefinitions` are those of the
starting registry, and so is `fileCount()`; each single call leaves them as
they were. (`fileCount` itself only reads the registry.) -/
theorem registry_frame (pd₀ pd : PackageDefinitions) (h : Reachable pd₀ pd) :
    (pd.filenames = pd₀.filenames ∧ pd.Dir = pd₀.Dir ∧ pd.ImportName = pd₀.ImportName
        ∧ pd.ImportPath = pd₀.ImportPath ∧ pd.TypeDefinitions = pd₀.TypeDefinitions
        ∧ fileCount pd = fileCount pd₀)
      ∧ ∀ op : Op,
          (op.after pd).filenames = pd.filenames ∧ (op.after pd).Dir = pd.Dir
            ∧ (op.after pd).ImportName = pd.ImportName
            ∧ (op.after pd).ImportPath = pd.ImportPath
            ∧ (op.after pd).TypeDefinitions = pd.TypeDefinitions
            ∧ fileCount (op.after pd) = fileCount pd := by
  constructor
  · obtain ⟨fs, hfs, _⟩ := reachable_frame pd₀ pd h
    rw [hfs]
    exact ⟨rfl, rfl, rfl, rfl, rfl, rfl⟩
  · intro op
    obtain ⟨fs, hfs, _⟩ := after_frame pd op
    rw [hfs]
    exact ⟨rfl, rfl, rfl, rfl, rfl, rfl⟩

/-- C11, on the sample registry after a load, a failed load, an injection and
an injection that panics. -/
theorem registry_frame_witness :
    Reachable sampleRegistry
        ((Op.mustAdd "pkg/zzz.go".toList none).after
          ((Op.mustAdd "pkg/d.go".toList (some otherTree)).after
            ((Op.loadFileByIndex badParser 1).after
              ((Op.loadFileByIndex goodParser 0).after sampleRegistry))))
      ∧ ((Op.mustAdd "pkg/zzz.go".toList none).after
          ((Op.mustAdd "pkg/d.go".toList (some otherTree)).after
            ((Op.loadFileByIndex badParser 1).after
              ((Op.loadFileByIndex goodParser 0).after sampleRegistry)))).filenames
          = ["a.go".toList, "B.GO".toList, "d.go".toList]
      ∧ fileCount ((Op.mustAdd "pkg/zzz.go".toList none).after
          ((Op.mustAdd "pkg/d.go".toList (some otherTree)).after
            ((Op.loadFileByIndex badParser 1).after
              ((Op.loadFileByIndex goodParser 0).after sampleRegistry)))) = 3 :=
  ⟨.call _ _ (.call _ _ (.call _ _ (.call _ _ .start))),
    (registry_frame sampleRegistry _
      (.call _ _ (.call _ _ (.call _ _ (.call _ _ .start))))).1.1,
    (registry_frame sampleRegistry _
      (.call _ _ (.call _ _ (.call _ _ (.call _ _ .start))))).1.2.2.2.2.2⟩

/-! ## The directory and the kind of its entries -/

/-- C12, as stated, fails: for the directory paths `pkg//` and `pkg/\` the
stored `Dir` is `pkg/`, which ends with a separator. -/
theorem dir_keeps_separator :
    (∃ pd, newPackageDefinitions plainTable sampleReadDir "pkg".toList
          "example.com/pkg".toList "pkg//".toList = .ok pd
        ∧ pd.Dir = "pkg/".toList ∧ HasSuffix pd.Dir ['/'] = true)
      ∧ ∃ pd, newPackageDefinitions plainTable sampleReadDir "pkg".toList
          "example.com/pkg".toList "pkg/\\".toList = .ok pd
        ∧ pd.Dir = "pkg/".toList ∧ HasSuffix pd.Dir ['/'] = true :=
  ⟨⟨_, rfl, rfl, rfl⟩, ⟨_, rfl, rfl, rfl⟩⟩

/-- C12, amended. When the directory path ends with at most one path
separator, that is, it is a path `base` that does not end with `/` or `\`,
followed by nothing, by one `/` or by one `\`, the stored `Dir` is `base` and
so does not end with `/` or `\`. -/
theorem dir_trimmed_once (caseTable : Char → Char)
    (readDir : GoString → Except GoString (List FileInfo))
    (importName importPath packageDir : GoString) (fis : List FileInfo) (base : GoString)
    (h : readDir packageDir = .ok fis)
    (h1 : base.getLast? ≠ some '/') (h2 : base.getLast? ≠ some '\\')
    (hd : packageDir = base ∨ packageDir = base ++ ['/'] ∨ packageDir = base ++ ['\\']) :
    ∃ pd, newPackageDefinitions caseTable readDir importName importPath packageDir = .ok pd
      ∧ pd.Dir = base ∧ HasSuffix pd.Dir ['/'] = false ∧ HasSuffix pd.Dir ['\\'] = false := by
  refine ⟨_, newPackageDefinitions_ok caseTable readDir importName importPath packageDir fis h,
    ?_⟩
  have hbase : TrimSuffix (TrimSuffix packageDir ['/']) ['\\'] = base := by
    rcases hd with hd | hd | hd
    · rw [hd, trimSuffix_single_of_ne base '/' h1, trimSuffix_single_of_ne base '\\' h2]
    · rw [hd, trimSuffix_append_single, trimSuffix_single_of_ne base '\\' h2]
    · rw [hd, trimSuffix_single_of_ne (base ++ ['\\']) '/' (by simp),
        trimSuffix_append_single]
  have hno : ∀ c : Char, base.getLast? ≠ some c → HasSuffix base [c] = false := by
    intro c hc
    rw [Bool.eq_false_iff]
    intro hs
    obtain ⟨t, ht⟩ := (hasSuffix_iff _ _).mp hs
    apply hc
    rw [← ht]
    simp
  dsimp only
  rw [hbase]
  exact ⟨rfl, hno '/' h1, hno '\\' h2⟩

/-- C12, amended, for the directory paths `pkg/` and `pkg\`. -/
theorem dir_trimmed_once_witness :
    sampleReadDir "pkg/".toList = .ok sampleListing
      ∧ ("pkg".toList).getLast? ≠ some '/' ∧ ("pkg".toList).getLast? ≠ some '\\'
      ∧ (∃ pd, newPackageDefinitions plainTable sampleReadDir "pkg".toList
            "example.com/pkg".toList "pkg/".toList = .ok pd
          ∧ pd.Dir = "pkg".toList ∧ HasSuffix pd.Dir ['/'] = false
          ∧ HasSuffix pd.Dir ['\\'] = false)
      ∧ ∃ pd, newPackageDefinitions plainTable sampleReadDir "pkg".toList
            "example.com/pkg".toList "pkg\\".toList = .ok pd
          ∧ pd.Dir = "pkg".toList ∧ HasSuffix pd.Dir ['/'] = false
          ∧ HasSuffix pd.Dir ['\\'] = false :=
  ⟨rfl, by decide, by decide,
    dir_trimmed_once plainTable sampleReadDir "pkg".toList "example.com/pkg".toList
      "pkg/".toList sampleListing "pkg".toList rfl (by decide) (by decide) (Or.inr (Or.inl rfl)),
    dir_trimmed_once plainTable sampleReadDir "pkg".toList "example.com/pkg".toList
      "pkg\\".toList sampleListing "pkg".toList rfl (by decide) (by decide)
      (Or.inr (Or.inr rfl))⟩

/-- C13, as stated, fails: the sub-directory `x.go` of the listing is tracked,
and the listing has no regular file of that name. -/
theorem directory_entry_tracked :
    (⟨"x.go".toList, true⟩ : FileInfo) ∈ listingWithDir
      ∧ (∀ fi ∈ listingWithDir, fi.Name = "x.go".toList → fi.IsDir = true)
      ∧ ∃ pd, newPackageDefinitions plainTable (fun _ => .ok listingWithDir) "pkg".toList
            "example.com/pkg".toList "pkg".toList = .ok pd
          ∧ pd.filenames = ["a.go".toList, "x.go".toList]
          ∧ "x.go".toList ∈ pd.filenames :=
  ⟨by decide, by decide, _, rfl, rfl, by decide⟩

/-- C13, amended. `newPackageDefinitions` selects by name only: the tracked
filenames are names of entries of the listing that pass the name filter, every
entry whose name passes the filter is tracked whether it is a regular file or
a directory, and a listing with the same names and other kinds gives the same
registry. -/
theorem tracked_by_name_only (caseTable : Char → Char)
    (readDir : GoString → Except GoString (List FileInfo))
    (importName importPath packageDir : GoString) (fis : List FileInfo)
    (h : readDir packageDir = .ok fis) :
    ∃ pd, newPackageDefinitions caseTable readDir importName importPath packageDir = .ok pd
      ∧ (∀ name ∈ pd.filenames, ∃ fi ∈ fis, fi.Name = name ∧ includedName caseTable name = true)
      ∧ (∀ fi ∈ fis, includedName caseTable fi.Name = true → fi.Name ∈ pd.filenames)
      ∧ ∀ (readDir' : GoString → Except GoString (List FileInfo)) (fis' : List FileInfo),
          readDir' packageDir = .ok fis' → fis'.map FileInfo.Name = fis.map FileInfo.Name →
          newPackageDefinitions caseTable readDir' importName importPath packageDir = .ok pd := by
  refine ⟨_, newPackageDefinitions_ok caseTable readDir importName importPath packageDir fis h,
    ?_, ?_, ?_⟩
  · intro name hname
    obtain ⟨hmem, hinc⟩ := List.mem_filter.mp hname
    obtain ⟨fi, hfi, hfn⟩ := List.mem_map.mp hmem
    exact ⟨fi, hfi, hfn, hinc⟩
  · intro fi hfi hinc
    exact List.mem_filter.mpr ⟨List.mem_map.mpr ⟨fi, hfi, rfl⟩, hinc⟩
  · intro readDir' fis' h' hnames
    rw [newPackageDefinitions_ok caseTable readDir' importName importPath packageDir fis' h',
      hnames]

/-- C13, amended, at the listing with the sub-directory `x.go`. -/
theorem tracked_by_name_only_witness :
    (fun _ => Except.ok listingWithDir : GoString → Except GoString (List FileInfo))
        "pkg".toList = .ok listingWithDir
      ∧ ∃ pd, newPackageDefinitions plainTable (fun _ => .ok listingWithDir) "pkg".toList
            "example.com/pkg".toList "pkg".toList = .ok pd
          ∧ (∀ fi ∈ listingWithDir, includedName plainTable fi.Name = true →
              fi.Name ∈ pd.filenames) :=
  ⟨rfl,
    (tracked_by_name_only plainTable (fun _ => .ok listingWithDir) "pkg".toList
      "example.com/pkg".toList "pkg".toList listingWithDir rfl).imp
      fun _ hpd => ⟨hpd.1, hpd.2.2.1⟩⟩

/-! ## Lemmas on the canonical names -/

theorem append_dot_inj (a c b d : GoString) (ha : '.' ∉ a) (hc : '.' ∉ c)
    (h : a ++ '.' :: b = c ++ '.' :: d) : a = c ∧ b = d := by
  induction a generalizing c with
  | nil =>
    cases c with
    | nil => exact ⟨rfl, by simpa using h⟩
    | cons y c' =>
      exfalso
      apply hc
      have hy : '.' = y := by
        have := congrArg List.head? h
        simpa using this
      rw [hy]
      exact List.mem_cons_self _ _
  | cons x a' ih =>
    cases c with
    | nil =>
      exfalso
      apply ha
      have hx : x = '.' := by
        have := congrArg List.head? h
        simpa using this
      rw [hx]
      exact List.mem_cons_self _ _
    | cons y c' =>
      rw [List.cons_append, List.cons_append, List.cons.injEq] at h
      obtain ⟨hxy, hrest⟩ := h
      have ha' : '.' ∉ a' := fun hm => ha (List.mem_cons_of_mem _ hm)
      have hc' : '.' ∉ c' := fun hm => hc (List.mem_cons_of_mem _ hm)
      obtain ⟨h1, h2⟩ := ih c' ha' hc' hrest
      exact ⟨by rw [hxy, h1], h2⟩

theorem fullName_of_scoped (t : TypeSpecDef) (file : AstFile) (ts : TypeSpec) (fn : FuncDecl)
    (hf : t.File = some file) (hts : t.TypeSpec = some ts) (hfn : t.parentFun = some fn) :
    t.FullName = .ok (file.Name.Name ++ '.' :: (fn.Name.Name ++ '.' :: ts.Name.Name)) := by
  unfold TypeSpecDef.FullName
  rw [hfn, hf, hts]
  simp [fullTypeNameFunctionScoped]

theorem fullName_of_unscoped (t : TypeSpecDef) (file : AstFile) (ts : TypeSpec)
    (hf : t.File = some file) (hts : t.TypeSpec = some ts) (hfn : t.parentFun = none) :
    t.FullName = .ok (file.Name.Name ++ '.' :: ts.Name.Name) := by
  unfold TypeSpecDef.FullName
  rw [hfn, hf, hts]
  simp [fullTypeName]

/-! ## The canonical names -/

/-- C14. For a descriptor whose `File` and `TypeSpec` are bound, `FullName()`
is package name, dot, enclosing function name, dot, type name when
`ParentSpec` holds a non-nil function declaration, and package name, dot, type
name when `ParentSpec` is nil, a nil function declaration, or a declaration of
another kind. -/
theorem fullName_composition (t : TypeSpecDef) (file : AstFile) (ts : TypeSpec)
    (hf : t.File = some file) (hts : t.TypeSpec = some ts) :
    (∀ fn, t.ParentSpec = some (.funcDecl (some fn)) →
        t.FullName = .ok (file.Name.Name ++ ['.'] ++ fn.Name.Name ++ ['.'] ++ ts.Name.Name))
      ∧ ((t.ParentSpec = none ∨ t.ParentSpec = some (.funcDecl none)
            ∨ t.ParentSpec = some .genDecl ∨ t.ParentSpec = some .badDecl) →
          t.FullName = .ok (file.Name.Name ++ ['.'] ++ ts.Name.Name)) := by
  constructor
  · intro fn hp
    have hfn : t.parentFun = some fn := by
      unfold TypeSpecDef.parentFun
      rw [hp]
    rw [fullName_of_scoped t file ts fn hf hts hfn]
    simp
  · intro hp
    have hfn : t.parentFun = none := by
      unfold TypeSpecDef.parentFun
      rcases hp with hp | hp | hp | hp <;> rw [hp]
    rw [fullName_of_unscoped t file ts hf hts hfn]
    simp

/-- C14, for `type Foo` at package scope and `type Bar` inside `Baz` of the
package `pkg`. -/
theorem fullName_composition_witness :
    fooDef.File = some pkgFile ∧ fooDef.TypeSpec = some ⟨⟨"Foo".toList⟩⟩
      ∧ fooDef.FullName = .ok "pkg.Foo".toList
      ∧ barInBaz.FullName = .ok "pkg.Baz.Bar".toList :=
  ⟨rfl, rfl,
    (fullName_composition fooDef pkgFile ⟨⟨"Foo".toList⟩⟩ rfl rfl).2 (Or.inl rfl),
    (fullName_composition barInBaz pkgFile ⟨⟨"Bar".toList⟩⟩ rfl rfl).1 ⟨⟨"Baz".toList⟩⟩ rfl⟩

/-- C15. `FullPath()` is `PkgPath`, dot, `Name()`; it does not depend on `File`
or `ParentSpec`. Two descriptors of the same file with the same `PkgPath` and
the same bound declaration, one inside a function and the other at package
scope or inside a function of another name, have the same `FullPath()` and
different `FullName()`. -/
theorem fullPath_ignores_scope (t₁ t₂ : TypeSpecDef) (file : AstFile) (ts : TypeSpec)
    (fn : FuncDecl) (hpath : t₁.PkgPath = t₂.PkgPath)
    (hf₁ : t₁.File = some file) (hf₂ : t₂.File = some file)
    (hts₁ : t₁.TypeSpec = some ts) (hts₂ : t₂.TypeSpec = some ts)
    (hfn : t₁.parentFun = some fn)
    (hscope : t₂.parentFun = none
      ∨ ∃ g, t₂.parentFun = some g ∧ g.Name.Name ≠ fn.Name.Name) :
    t₁.FullPath = t₁.PkgPath ++ ['.'] ++ t₁.Name
      ∧ t₁.FullPath = t₁.PkgPath ++ ['.'] ++ ts.Name.Name
      ∧ (∀ f parent, ({ t₁ with File := f, ParentSpec := parent }).FullPath = t₁.FullPath)
      ∧ t₂.FullPath = t₁.FullPath
      ∧ t₁.FullName ≠ t₂.FullName := by
  refine ⟨rfl, ?_, fun _ _ => rfl, ?_, ?_⟩
  · unfold TypeSpecDef.FullPath TypeSpecDef.Name
    rw [hts₁]
  · unfold TypeSpecDef.FullPath TypeSpecDef.Name
    rw [hts₁, hts₂, hpath]
  · rw [fullName_of_scoped t₁ file ts fn hf₁ hts₁ hfn]
    rcases hscope with hnone | ⟨g, hg, hne⟩
    · rw [fullName_of_unscoped t₂ file ts hf₂ hts₂ hnone]
      intro h
      have h' := congrArg List.length (List.append_cancel_left (Except.ok.inj h))
      simp only [List.length_cons, List.length_append] at h'
      omega
    · rw [fullName_of_scoped t₂ file ts g hf₂ hts₂ hg]
      intro h
      have h' := List.append_cancel_left (Except.ok.inj h)
      rw [List.cons.injEq] at h'
      have h'' : fn.Name.Name ++ '.' :: ts.Name.Name = g.Name.Name ++ '.' :: ts.Name.Name :=
        h'.2
      exact hne (List.append_cancel_right h'').symm

/-- C15, for `type Bar` inside `Baz` against `type Bar` at package scope. -/
theorem fullPath_ignores_scope_witness :
    barInBaz.PkgPath = barTop.PkgPath ∧ barInBaz.parentFun = some ⟨⟨"Baz".toList⟩⟩
      ∧ barTop.parentFun = none
      ∧ barInBaz.FullPath = "example.com/pkg.Bar".toList
      ∧ barTop.FullPath = barInBaz.FullPath
      ∧ barInBaz.FullName ≠ barTop.FullName :=
  ⟨rfl, rfl, rfl, rfl,
    (fullPath_ignores_scope barInBaz barTop pkgFile ⟨⟨"Bar".toList⟩⟩ ⟨⟨"Baz".toList⟩⟩
      rfl rfl rfl rfl rfl rfl (Or.inl rfl)).2.2.2.1,
    (fullPath_ignores_scope barInBaz barTop pkgFile ⟨⟨"Bar".toList⟩⟩ ⟨⟨"Baz".toList⟩⟩
      rfl rfl rfl rfl rfl rfl (Or.inl rfl)).2.2.2.2⟩

/-- C16. For a descriptor whose bound declaration, if there is one, carries a
non-empty identifier, as every declaration built by the parser does: `Name()`
is the identifier of the bound declaration, it is the empty string when no
declaration is bound, and it is empty only when no declaration is bound. -/
theorem name_empty_iff_unbound (t : TypeSpecDef)
    (hident : ∀ ts, t.TypeSpec = some ts → ts.Name.Name ≠ []) :
    (∀ ts, t.TypeSpec = some ts → t.Name = ts.Name.Name)
      ∧ (t.TypeSpec = none → t.Name = [])
      ∧ (t.Name = [] → t.TypeSpec = none)
      ∧ (t.Name = [] ↔ t.TypeSpec = none) := by
  have hbound : ∀ ts, t.TypeSpec = some ts → t.Name = ts.Name.Name := by
    intro ts h
    unfold TypeSpecDef.Name
    rw [h]
  have hnone : t.TypeSpec = none → t.Name = [] := by
    intro h
    unfold TypeSpecDef.Name
    rw [h]
  have hempty : t.Name = [] → t.TypeSpec = none := by
    intro h
    cases hts : t.TypeSpec with
    | none => rfl
    | some ts =>
      exfalso
      apply hident ts hts
      rw [← hbound ts hts]
      exact h
  exact ⟨hbound, hnone, hempty, hempty, hnone⟩

/-- C16, for `type Foo` of the sample package and for a descriptor without a
declaration. -/
theorem name_empty_iff_unbound_witness :
    (∀ ts, fooDef.TypeSpec = some ts → ts.Name.Name ≠ [])
      ∧ fooDef.Name = "Foo".toList
      ∧ (∀ ts, unboundDef.TypeSpec = some ts → ts.Name.Name ≠ [])
      ∧ unboundDef.TypeSpec = none
      ∧ unboundDef.Name = []
      ∧ (unboundDef.Name = [] ↔ unboundDef.TypeSpec = none) :=
  ⟨by intro ts h; cases h; decide,
    (name_empty_iff_unbound fooDef (by intro ts h; cases h; decide)).1 ⟨⟨"Foo".toList⟩⟩ rfl,
    (by intro ts h; cases h),
    rfl,
    (name_empty_iff_unbound unboundDef (by intro ts h; cases h)).2.1 rfl,
    (name_empty_iff_unbound unboundDef (by intro ts h; cases h)).2.2.2⟩

/-- C17. For two descriptors whose `File` and `TypeSpec` are bound and whose
package, function and type names contain no dot, the two `FullName()` are
equal exactly when the package names are equal, the type names are equal, and
the scopes are the same: both at package scope, or both inside functions of
the same name. -/
theorem fullName_injective (t₁ t₂ : TypeSpecDef) (f₁ f₂ : AstFile) (ts₁ ts₂ : TypeSpec)
    (hf₁ : t₁.File = some f₁) (hf₂ : t₂.File = some f₂)
    (hts₁ : t₁.TypeSpec = some ts₁) (hts₂ : t₂.TypeSpec = some ts₂)
    (hp₁ : '.' ∉ f₁.Name.Name) (hp₂ : '.' ∉ f₂.Name.Name)
    (hy₁ : '.' ∉ ts₁.Name.Name) (hy₂ : '.' ∉ ts₂.Name.Name)
    (hn₁ : ∀ fn, t₁.parentFun = some fn → '.' ∉ fn.Name.Name)
    (hn₂ : ∀ fn, t₂.parentFun = some fn → '.' ∉ fn.Name.Name) :
    t₁.FullName = t₂.FullName ↔
      f₁.Name.Name = f₂.Name.Name ∧ ts₁.Name.Name = ts₂.Name.Name
        ∧ t₁.parentFun.map (fun fn => fn.Name.Name)
            = t₂.parentFun.map (fun fn => fn.Name.Name) := by
  cases h₁ : t₁.parentFun with
  | none =>
    cases h₂ : t₂.parentFun with
    | none =>
      rw [fullName_of_unscoped t₁ f₁ ts₁ hf₁ hts₁ h₁, fullName_of_unscoped t₂ f₂ ts₂ hf₂ hts₂ h₂]
      constructor
      · intro h
        obtain ⟨e1, e2⟩ := append_dot_inj _ _ _ _ hp₁ hp₂ (Except.ok.inj h)
        exact ⟨e1, e2, rfl⟩
      · rintro ⟨e1, e2, _⟩
        rw [e1, e2]
    | some g =>
      rw [fullName_of_unscoped t₁ f₁ ts₁ hf₁ hts₁ h₁,
        fullName_of_scoped t₂ f₂ ts₂ g hf₂ hts₂ h₂]
      constructor
      · intro h
        obtain ⟨_, e2⟩ := append_dot_inj _ _ _ _ hp₁ hp₂ (Except.ok.inj h)
        exfalso
        apply hy₁
        rw [e2]
        simp
      · rintro ⟨_, _, e3⟩
        simp at e3
  | some g₁ =>
    cases h₂ : t₂.parentFun with
    | none =>
      rw [fullName_of_scoped t₁ f₁ ts₁ g₁ hf₁ hts₁ h₁,
        fullName_of_unscoped t₂ f₂ ts₂ hf₂ hts₂ h₂]
      constructor
      · intro h
        obtain ⟨_, e2⟩ := append_dot_inj _ _ _ _ hp₁ hp₂ (Except.ok.inj h)
        exfalso
        apply hy₂
        rw [← e2]
        simp
      · rintro ⟨_, _, e3⟩
        simp at e3
    | some g₂ =>
      rw [fullName_of_scoped t₁ f₁ ts₁ g₁ hf₁ hts₁ h₁,
        fullName_of_scoped t₂ f₂ ts₂ g₂ hf₂ hts₂ h₂]
      constructor
      · intro h
        obtain ⟨e1, e2⟩ := append_dot_inj _ _ _ _ hp₁ hp₂ (Except.ok.inj h)
        obtain ⟨e3, e4⟩ := append_dot_inj _ _ _ _ (hn₁ g₁ h₁) (hn₂ g₂ h₂) e2
        exact ⟨e1, e4, by simp [e3]⟩
      · rintro ⟨e1, e2, e3⟩
        have e3' : g₁.Name.Name = g₂.Name.Name := by simpa using e3
        rw [e1, e2, e3']

/-- C17, for `type Bar` inside `Baz` and `type Bar` inside `Qux`: the names
have no dot, the scopes differ, and so do the two `FullName()`. -/
theorem fullName_injective_witness :
    barInBaz.File = some pkgFile ∧ barInQux.File = some pkgFile
      ∧ '.' ∉ pkgFile.Name.Name ∧ '.' ∉ "Bar".toList
      ∧ barInBaz.FullName = .ok "pkg.Baz.Bar".toList
      ∧ barInQux.FullName = .ok "pkg.Qux.Bar".toList
      ∧ barInBaz.FullName ≠ barInQux.FullName
      ∧ barTop.FullName = barTopAgain.FullName :=
  ⟨rfl, rfl, by decide, by decide, rfl, rfl,
    fun h => absurd
      ((fullName_injective barInBaz barInQux pkgFile pkgFile ⟨⟨"Bar".toList⟩⟩
        ⟨⟨"Bar".toList⟩⟩ rfl rfl rfl rfl (by decide) (by decide) (by decide) (by decide)
        (by intro fn h; cases h; decide) (by intro fn h; cases h; decide)).mp h).2.2
      (by decide),
    (fullName_injective barTop barTopAgain pkgFile sampleTree ⟨⟨"Bar".toList⟩⟩
      ⟨⟨"Bar".toList⟩⟩ rfl rfl rfl rfl (by decide) (by decide) (by decide) (by decide)
      (by intro fn h; cases h) (by intro fn h; cases h)).mpr ⟨rfl, rfl, rfl⟩⟩

/-! ## Index safety and a file's own path -/

theorem index_of_lt {α : Type} (s : List α) (idx : Int) (h0 : 0 ≤ idx)
    (hlt : idx < (s.length : Int)) : ∃ a, index s idx = some a := by
  unfold index
  rw [if_neg (by omega)]
  exact ⟨_, List.getElem?_eq_getElem (by omega)⟩

theorem index_of_not_lt {α : Type} (s : List α) (idx : Int)
    (h : idx < 0 ∨ (s.length : Int) ≤ idx) : index s idx = none := by
  unfold index
  split
  · rfl
  · exact List.getElem?_eq_none (by omega)

theorem loadFileByIndex_of_not_lt (ParseFile : GoString → Option AstFile × Option GoString)
    (pd : PackageDefinitions) (idx : Int) (h : idx < 0 ∨ (pd.files.length : Int) ≤ idx) :
    loadFileByIndex ParseFile pd idx = ⟨.error .indexOutOfRange, pd, []⟩ := by
  unfold loadFileByIndex
  rw [index_of_not_lt pd.files idx h]

theorem loadFileByIndex_of_lt (ParseFile : GoString → Option AstFile × Option GoString)
    (pd : PackageDefinitions) (idx : Int) (hal : Aligned pd) (h0 : 0 ≤ idx)
    (hlt : idx < fileCount pd) :
    ∃ l, (loadFileByIndex ParseFile pd idx).result = .ok l
      ∧ ((l.err = none ∧ (l.file ≠ none ∨ ∃ path, ParseFile path = (none, none)))
        ∨ (l.file = none ∧ l.fresh = false ∧ l.err ≠ none)) := by
  unfold fileCount at hlt
  obtain ⟨slot, hslot⟩ := index_of_lt pd.files idx h0 (by rw [hal]; exact hlt)
  obtain ⟨name, hname⟩ := index_of_lt pd.filenames idx h0 hlt
  cases slot with
  | some tree =>
    rw [loadFileByIndex_of_populated ParseFile pd idx tree hslot]
    exact ⟨_, rfl, Or.inl ⟨rfl, Or.inl (by simp)⟩⟩
  | none =>
    rcases hp : ParseFile (Join pd.Dir name) with ⟨fileTree, _ | err⟩
    · rw [loadFileByIndex_of_parsed ParseFile pd idx name fileTree hslot hname hp]
      refine ⟨_, rfl, Or.inl ⟨rfl, ?_⟩⟩
      cases fileTree with
      | none => exact Or.inr ⟨_, hp⟩
      | some tree => exact Or.inl (by simp)
    · rw [loadFileByIndex_of_failed ParseFile pd idx name fileTree err hslot hname hp]
      exact ⟨_, rfl, Or.inr ⟨rfl, rfl, by simp⟩⟩

theorem trimLeft_separator_cons (sep : Char) (f : GoString)
    (hsep : sep = '/' ∨ sep = '\\')
    (h1 : f.head? ≠ some '/') (h2 : f.head? ≠ some '\\') :
    TrimLeft (sep :: f) ['/', '\\'] = f := by
  have hs : decide (sep ∈ ['/', '\\']) = true := by
    rcases hsep with e | e <;> subst e <;> decide
  unfold TrimLeft
  rw [List.dropWhile_cons, if_pos hs]
  cases f with
  | nil => rfl
  | cons c rest =>
    have hc : decide (c ∈ ['/', '\\']) = false := by
      simp only [List.head?_cons, ne_eq, Option.some.injEq] at h1 h2
      simp [h1, h2]
    rw [List.dropWhile_cons, hc]
    simp

/-- C18. In every registry reachable from one built by `newPackageDefinitions`,
`loadFileByIndex(idx)` with `0 <= idx < fileCount()` finds both the slot and the
filename at `idx` and returns normally, with a tree and no error or with no
tree and an error (a result with neither only if the parser itself returns
neither); the call panics, with an index out of range, exactly when `idx` is
outside that interval. -/
theorem loadFileByIndex_index_safe (caseTable : Char → Char)
    (readDir : GoString → Except GoString (List FileInfo))
    (importName importPath packageDir : GoString) (fis : List FileInfo)
    (h : readDir packageDir = .ok fis) :
    ∃ pd₀, newPackageDefinitions caseTable readDir importName importPath packageDir = .ok pd₀
      ∧ ∀ pd, Reachable pd₀ pd →
        ∀ (ParseFile : GoString → Option AstFile × Option GoString) (idx : Int),
          (0 ≤ idx ∧ idx < fileCount pd →
              (∃ slot, index pd.files idx = some slot)
                ∧ (∃ name, index pd.filenames idx = some name)
                ∧ ∃ l, (loadFileByIndex ParseFile pd idx).result = .ok l
                  ∧ ((l.err = none
                        ∧ (l.file ≠ none ∨ ∃ path, ParseFile path = (none, none)))
                    ∨ (l.file = none ∧ l.fresh = false ∧ l.err ≠ none)))
            ∧ ((∃ p, (loadFileByIndex ParseFile pd idx).result = .error p)
                ↔ idx < 0 ∨ fileCount pd ≤ idx)
            ∧ ∀ p, (loadFileByIndex ParseFile pd idx).result = .error p →
                p = .indexOutOfRange := by
  refine ⟨_, newPackageDefinitions_ok caseTable readDir importName importPath packageDir fis h,
    ?_⟩
  intro pd hpd ParseFile idx
  have hal : Aligned pd := by
    obtain ⟨fs, hfs, hlen⟩ := reachable_frame _ pd hpd
    unfold Aligned
    rw [hfs]
    simpa using hlen
  have hcount : fileCount pd = (pd.files.length : Int) := by
    unfold fileCount
    rw [hal]
  have hin : 0 ≤ idx ∧ idx < fileCount pd →
      ∃ l, (loadFileByIndex ParseFile pd idx).result = .ok l
        ∧ ((l.err = none ∧ (l.file ≠ none ∨ ∃ path, ParseFile path = (none, none)))
          ∨ (l.file = none ∧ l.fresh = false ∧ l.err ≠ none)) :=
    fun hr => loadFileByIndex_of_lt ParseFile pd idx hal hr.1 hr.2
  have hout : idx < 0 ∨ fileCount pd ≤ idx →
      (loadFileByIndex ParseFile pd idx).result = .error .indexOutOfRange := by
    intro hr
    rw [loadFileByIndex_of_not_lt ParseFile pd idx (by rw [← hcount]; exact hr)]
  have hcases : (0 ≤ idx ∧ idx < fileCount pd) ∨ (idx < 0 ∨ fileCount pd ≤ idx) := by omega
  refine ⟨fun hr => ⟨?_, ?_, hin hr⟩, ⟨?_, fun hr => ⟨_, hout hr⟩⟩, ?_⟩
  · exact index_of_lt pd.files idx hr.1 (by rw [← hcount]; exact hr.2)
  · exact index_of_lt pd.filenames idx hr.1 hr.2
  · rintro ⟨p, hp⟩
    rcases hcases with hr | hr
    · obtain ⟨l, hl, _⟩ := hin hr
      rw [hl] at hp
      cases hp
    · exact hr
  · intro p hp
    rcases hcases with hr | hr
    · obtain ⟨l, hl, _⟩ := hin hr
      rw [hl] at hp
      cases hp
    · rw [hout hr] at hp
      cases hp
      rfl

/-- C18, at the sample listing. -/
theorem loadFileByIndex_index_safe_witness :
    sampleReadDir "pkg/".toList = .ok sampleListing
      ∧ (loadFileByIndex goodParser sampleRegistry 2).result = .ok ⟨some sampleTree, true, none⟩
      ∧ (loadFileByIndex goodParser sampleRegistry 3).result = .error .indexOutOfRange
      ∧ (loadFileByIndex goodParser sampleRegistry (-1)).result = .error .indexOutOfRange
      ∧ ∃ pd₀, newPackageDefinitions plainTable sampleReadDir "pkg".toList
            "example.com/pkg".toList "pkg/".toList = .ok pd₀
          ∧ ∀ pd, Reachable pd₀ pd →
            ∀ (ParseFile : GoString → Option AstFile × Option GoString) (idx : Int),
              ((∃ p, (loadFileByIndex ParseFile pd idx).result = .error p)
                ↔ idx < 0 ∨ fileCount pd ≤ idx) :=
  ⟨rfl, rfl, rfl, rfl,
    (loadFileByIndex_index_safe plainTable sampleReadDir "pkg".toList "example.com/pkg".toList
      "pkg/".toList sampleListing rfl).imp
      fun _ hpd => ⟨hpd.1, fun pd hr ParseFile idx => (hpd.2 pd hr ParseFile idx).2.1⟩⟩

/-- C19. On an aligned registry, for a tracked filename `f` that does not begin
with `/` or `\`, the paths `Dir + "/" + f` and `Dir + "\" + f` normalise to `f`;
`mustAdd` on such a path returns normally and writes the slot of the first
occurrence of `f`, and `findFile` on it returns the content of that slot. -/
theorem own_path_resolves (pd : PackageDefinitions) (f : GoString) (file : Option AstFile)
    (sep : Char) (hal : Aligned pd) (hmem : f ∈ pd.filenames)
    (h1 : f.head? ≠ some '/') (h2 : f.head? ≠ some '\\')
    (hsep : sep = '/' ∨ sep = '\\') :
    simpleFilename pd (pd.Dir ++ sep :: f) = f
      ∧ pd.filenames[firstIndex f pd.filenames]? = some f
      ∧ (∀ j, j < firstIndex f pd.filenames → pd.filenames[j]? ≠ some f)
      ∧ mustAdd pd (pd.Dir ++ sep :: f) file =
          ⟨.ok (), { pd with files := pd.files.set (firstIndex f pd.filenames) file }, []⟩
      ∧ ∃ slot, pd.files[firstIndex f pd.filenames]? = some slot
          ∧ findFile pd (pd.Dir ++ sep :: f) = ⟨.ok slot, pd, []⟩ := by
  have hs : simpleFilename pd (pd.Dir ++ sep :: f) = f := by
    unfold simpleFilename
    rw [trimPrefix_append, trimLeft_separator_cons sep f hsep h1 h2]
  have hmem' : simpleFilename pd (pd.Dir ++ sep :: f) ∈ pd.filenames := by
    rw [hs]
    exact hmem
  have hlt : firstIndex f pd.filenames < pd.files.length := by
    rw [hal]
    exact (firstIndex_lt_length _ _).mpr hmem
  refine ⟨hs, getElem?_firstIndex _ _ hmem,
    fun j hj => getElem?_ne_of_lt_firstIndex _ _ j hj, ?_, ?_⟩
  · rw [mustAdd_of_mem pd _ file hal hmem', hs]
  · refine ⟨_, List.getElem?_eq_getElem hlt, ?_⟩
    apply findFile_of_mem pd _ _ hmem'
    rw [hs]
    exact List.getElem?_eq_getElem hlt

/-- C19, on the registry whose first slot is populated, with the separator
`\`. -/
theorem own_path_resolves_witness :
    Aligned loadedRegistry ∧ "a.go".toList ∈ loadedRegistry.filenames
      ∧ simpleFilename loadedRegistry "pkg\\a.go".toList = "a.go".toList
      ∧ (mustAdd loadedRegistry "pkg\\a.go".toList (some otherTree)).pd.files
          = [some otherTree, none, none]
      ∧ findFile loadedRegistry "pkg\\a.go".toList
          = ⟨.ok (some sampleTree), loadedRegistry, []⟩ :=
  ⟨by decide, by decide,
    (own_path_resolves loadedRegistry "a.go".toList (some otherTree) '\\' (by decide)
      (by decide) (by decide) (by decide) (Or.inr rfl)).1,
    rfl, rfl⟩

/-! ## The case of the suffixes -/

/-- C20. Whatever the case tables, the names `X_TEST.GO`, `x_test.GO` and
`x-GEN.go` have the lower-cased extension `.go`, end neither with `_test.go`
nor with `-gen.go`, and are tracked by the registry built from a listing that
holds them, while `x_test.go` and `x-gen.go` of the same listing are not. -/
theorem suffix_checks_case_sensitive (caseTable : Char → Char) :
    (∃ pd, newPackageDefinitions caseTable (fun _ => .ok mixedCaseListing) "pkg".toList
          "example.com/pkg".toList "pkg".toList = .ok pd
        ∧ pd.filenames
            = ["X_TEST.GO".toList, "x_test.GO".toList, "x-GEN.go".toList, "X.GO".toList])
      ∧ ToLower caseTable (Ext "X_TEST.GO".toList) = ".go".toList
      ∧ ToLower caseTable (Ext "x_test.GO".toList) = ".go".toList
      ∧ ToLower caseTable (Ext "x-GEN.go".toList) = ".go".toList
      ∧ HasSuffix "X_TEST.GO".toList "_test.go".toList = false
      ∧ HasSuffix "x_test.GO".toList "_test.go".toList = false
      ∧ HasSuffix "x-GEN.go".toList "-gen.go".toList = false
      ∧ includedName caseTable "x_test.go".toList = false
      ∧ includedName caseTable "x-gen.go".toList = false :=
  ⟨⟨_, rfl, rfl⟩, rfl, rfl, rfl, rfl, rfl, rfl, rfl, rfl⟩

end Swag
